import Mathlib

/-!
Verification development for the WebDownloader site-mirroring engine
(`downloader.py`, class `WebDownloader` / `DownloaderThread`).

The engine is embedded shallowly:

* URLs are represented by their parsed components (the result of Python's
  `urlparse`): scheme, netloc, path, params, query, fragment.  The source
  passes URL *strings* around and re-parses them at each use site; since
  `urlparse ∘ urlunparse` is the identity on well-formed component tuples,
  we work with the parsed form throughout and provide `urlunparse` for the
  places where the source operates on the string (exclusion substring
  matching, `clean_url`'s return value).
* The HTML/CSS parsing done by BeautifulSoup and the network/Playwright
  backend are modelled as an oracle (`World`): for each page URL it yields
  whether the headless fetch succeeds, the set of resource URLs
  `_parse_resources` extracts (already normalised by `clean_url`, including
  the nested CSS resources from `_parse_css_resources`), the linked pages
  `_find_linked_pages` returns (already resolved by `urljoin`), the robots
  verdict, and the per-attempt HTTP behaviour (HEAD/GET) seen by
  `_download_resource`.
* The engine runs its phases sequentially in the model (count → download
  pages → download resources → final publish), which is the order of
  `download_websites`; the thread pool's interleavings are not modelled.
  The shared stop event is a constant of a run (`Config.stopSet`); the
  separate timed model `downloadResourceTimed` makes the stop signal
  time-dependent in order to settle the cancellation claim.
* Python integers are `Nat`; the float expression
  `int((downloaded / total) * 100)` is modelled as exact rational floor
  `downloaded * 100 / total`.
-/

/-- A parsed URL: the component tuple produced by Python's `urlparse`. -/
structure Url where
  scheme : String := ""
  netloc : String := ""
  path : String := ""
  params : String := ""
  query : String := ""
  fragment : String := ""
deriving DecidableEq, Repr

instance : Inhabited Url := ⟨{}⟩

/-- Python `urllib.parse.urlunparse` (via `urlunsplit`), reassembling a
component tuple into a URL string. -/
def urlunparse (u : Url) : String :=
  let url := if u.params ≠ "" then u.path ++ ";" ++ u.params else u.path
  let url :=
    if u.netloc ≠ "" ∨ (url.data.take 2 = ['/', '/']) then
      "//" ++ u.netloc ++ (if url ≠ "" ∧ url.data.take 1 ≠ ['/'] then "/" ++ url else url)
    else url
  let url := if u.scheme ≠ "" then u.scheme ++ ":" ++ url else url
  let url := if u.query ≠ "" then url ++ "?" ++ u.query else url
  if u.fragment ≠ "" then url ++ "#" ++ u.fragment else url

/-- `WebDownloader.clean_url`: `parsed._replace(fragment='', query='')`.
The query is dropped unconditionally — the `remove_query_strings`
configuration field is never consulted by `downloader.py`. -/
def cleanUrl (u : Url) : Url :=
  { u with fragment := "", query := "" }

/-- `WebDownloader.clean_url` seen at the string level: the source returns
`urlunparse(clean_parsed)`. -/
def cleanUrlString (u : Url) : String :=
  urlunparse (cleanUrl u)

/-- Modelled from the spec: "Normalizes a URL by resolving it against a base
and stripping the fragment (and, if configured, the query string)" — the
normalizer as the specification describes it, with the query stripped only
when the remove-query-strings option is set.  Used solely to compare the
spec's words with the source's `clean_url`. -/
def cleanUrlSpecModel (removeQueryStrings : Bool) (u : Url) : String :=
  urlunparse { u with fragment := "", query := if removeQueryStrings then "" else u.query }

/-- The part of `s` after the last `'/'` (Python `os.path.basename`,
character-level). -/
def basenameChars (cs : List Char) : List Char :=
  cs.foldl (fun acc c => if c = '/' then [] else acc ++ [c]) []

/-- `os.path.basename` on strings. -/
def basenameStr (s : String) : String :=
  String.mk (basenameChars s.data)

/-- The suffix of `b` starting at its last `'.'` (`[]` when there is no dot). -/
def extFromLastDot : List Char → List Char
  | [] => []
  | c :: rest =>
    let e := extFromLastDot rest
    if e ≠ [] then e else if c = '.' then c :: rest else []

/-- The extension produced by `os.path.splitext(p)[1]` for a POSIX path:
the suffix of the basename from its last dot, unless every character before
that dot is itself a dot. -/
def splitextExt (p : String) : String :=
  let b := basenameChars p.data
  let e := extFromLastDot b
  if e ≠ [] ∧ (b.take (b.length - e.length)).any (fun c => c ≠ '.') then
    String.mk e
  else ""

/-- `os.path.join(a, b)` for a single POSIX component. -/
def osJoin (a b : String) : String :=
  if b.data.take 1 = ['/'] then b
  else if a = "" then b
  else if a.data.getLast? = some '/' then a ++ b
  else a ++ "/" ++ b

/-- The run configuration: the constructor arguments of `WebDownloader`
(settings that only feed HTTP transport details that no claim touches are
omitted).  `stopSet` models `stop_event is not None and stop_event.is_set()`,
constant over a sequential run.  `persistedDownloaded`/`persistedFailed` are
the contents of `cache.json` loaded by `load_cache`. -/
structure Config where
  baseUrls : List Url := []
  userAgent : String := ""
  timeout : Nat := 10
  retries : Nat := 3
  maxDepth : Nat := 2
  exclusions : List String := []
  robotsTxt : Bool := true
  maxFileSize : Nat := 0
  downloadStructure : String := "keep"
  followExternalLinks : Bool := false
  customHeaders : List (String × String) := []
  authToken : String := ""
  ignoreMimeTypes : List String := []
  includeSubdomains : Bool := true
  removeQueryStrings : Bool := false
  maxPages : Nat := 0
  maxResources : Nat := 0
  maxImages : Nat := 0
  stopSet : Bool := false
  persistedDownloaded : List Url := []
  persistedFailed : List Url := []

/-- `self.max_file_size = max_file_size * 1024 * 1024`. -/
def maxFileSizeBytes (cfg : Config) : Nat :=
  cfg.maxFileSize * 1024 * 1024

/-- Does `needle` occur at the start of `haystack`? -/
def startMatch : List Char → List Char → Bool
  | [], _ => true
  | _ :: _, [] => false
  | a :: as, b :: bs => a = b && startMatch as bs

/-- Does `needle` occur anywhere in `haystack`? -/
def infixMatch (needle : List Char) : List Char → Bool
  | [] => startMatch needle []
  | b :: bs => startMatch needle (b :: bs) || infixMatch needle bs

/-- Substring test (`needle in haystack` on Python strings). -/
def strContains (haystack needle : String) : Bool :=
  infixMatch needle.data haystack.data

/-- Setting `headers[key] = value` on a Python dict: replace in place when
the key exists, append otherwise. -/
def headerSet (hs : List (String × String)) (k v : String) : List (String × String) :=
  if hs.any (fun p => p.1 = k) then
    hs.map (fun p => if p.1 = k then (k, v) else p)
  else hs ++ [(k, v)]

/-- The headers installed on `self.session` by `WebDownloader.__init__`:
the user agent, then the configured custom headers (those with nonempty key
and value), then `Authorization: Bearer <token>` when an auth token is set.
These are the only headers a fetch sends — no conditional validators are
ever added. -/
def sessionHeaders (cfg : Config) : List (String × String) :=
  let hs := [("User-Agent", cfg.userAgent)]
  let hs := cfg.customHeaders.foldl
    (fun hs h => if h.1 ≠ "" ∧ h.2 ≠ "" then headerSet hs h.1 h.2 else hs) hs
  if cfg.authToken ≠ "" then headerSet hs "Authorization" ("Bearer " ++ cfg.authToken) else hs

/-- The JSON object written by `save_cache` / read by `load_cache`:
`{'downloaded': [...], 'failed': [...]}` — two lists of URL strings and
nothing else (no validators, no content type, no body). -/
structure CacheFile where
  downloaded : List Url
  failed : List Url
deriving DecidableEq, Repr

/-- The HTTP behaviour of the origin for one attempt of
`_download_resource`: the HEAD response as `(status, contentType)` (`none`
for a transport error that raises `RequestException`), and the GET response
as `(status, contentLength, contentType)` (`none` likewise). -/
structure AttemptResp where
  headResp : Option (Nat × String) := none
  getResp : Option (Nat × Option Nat × String) := none

/-- The deterministic environment of a run: parsing and network behaviour.
`resources`/`links` package what BeautifulSoup extraction
(`_parse_resources` including `_parse_css_resources`, and
`_find_linked_pages` composed with `urljoin`) produces for a page. -/
structure World where
  fetchOk : Url → Bool
  resources : Url → List Url
  links : Url → List Url
  robotsAllow : Url → Bool
  attempt : Url → Nat → AttemptResp

/-- `WebDownloader._can_fetch` with the stop flag passed explicitly (the
source reads `self.stop_event`).  The robots branch collapses fetching
robots.txt, the `can_fetch` verdict and the exception-defaults-to-allow
behaviour into the oracle `robotsAllow`. -/
def canFetchAt (cfg : Config) (w : World) (stopNow : Bool) (u : Url) : Bool :=
  if stopNow then false
  else if cfg.exclusions.any (fun e => strContains (urlunparse u) e) then false
  else
    let baseDomain := (cfg.baseUrls.headD default).netloc
    let targetDomain := u.netloc
    if ¬ cfg.followExternalLinks ∧ targetDomain ≠ baseDomain then false
    else if ¬ cfg.includeSubdomains ∧ targetDomain ≠ baseDomain then false
    else if ¬ cfg.robotsTxt then true
    else w.robotsAllow u

/-- `WebDownloader._can_fetch` as called during a run. -/
def canFetch (cfg : Config) (w : World) (u : Url) : Bool :=
  canFetchAt cfg w cfg.stopSet u

/-- `WebDownloader._get_relative_path`. -/
def getRelativePath (cfg : Config) (u : Url) : String :=
  let path := u.path
  let path :=
    if path.data.getLast? = some '/' then path ++ "index.html"
    else if splitextExt path = "" then path ++ "/index.html"
    else path
  if cfg.downloadStructure = "flatten" then
    let filename := basenameStr path
    let filename := if filename = "" then "index.html" else filename
    osJoin u.netloc filename
  else
    osJoin u.netloc (String.mk (path.data.dropWhile (fun c => c = '/')))

/-- The percentage computed by `WebDownloader._update_progress`:
100 when `total_resources == 0`, otherwise
`int(downloaded / total * 100)` clamped to 100 (exact arithmetic). -/
def updateProgressValue (downloaded total : Nat) : Nat :=
  if total = 0 then 100
  else
    let progress := downloaded * 100 / total
    if progress > 100 then 100 else progress

example : updateProgressValue 0 0 = 100 := by decide
example : updateProgressValue 3 7 = 42 := by decide
example : cleanUrlString { scheme := "https", netloc := "e.com", path := "/a.css", query := "v=2" } =
    "https://e.com/a.css" := by decide
example : getRelativePath { downloadStructure := "flatten" }
    { scheme := "https", netloc := "e.com", path := "/x/style.css" } = "e.com/style.css" := by decide
example : getRelativePath {} { scheme := "https", netloc := "e.com", path := "/x/style.css" } =
    "e.com/x/style.css" := by decide
example : getRelativePath {} { scheme := "https", netloc := "e.com", path := "/x/" } =
    "e.com/x/index.html" := by decide
example : getRelativePath {} { scheme := "https", netloc := "e.com", path := "/x" } =
    "e.com/x/index.html" := by decide

/-- One progress publication: the counters at the moment of the callback
and the percentage handed to `progress_callback`. -/
structure Pub where
  downloaded : Nat
  total : Nat
  value : Nat
deriving DecidableEq, Repr

/-- Instrumentation events of the retry loop in `_download_resource`. -/
inductive REvent where
  | fetchHead (attempt : Nat)
  | fetchGet (attempt : Nat)
  | backoff (attempt : Nat) (wait : Nat)
deriving DecidableEq, Repr

/-- How the retry loop of `_download_resource` ends: `success` means the
GET completed with a non-error status and passed the size check; `tooLarge`
and `mimeSkip` return from the function; `no404` is the `break` on a HEAD
404; `exhausted` means `attempt` reached `retries`, after which the
function raises and the URL is marked failed. -/
inductive LoopRes where
  | success (contentLength : Option Nat) (contentType : String)
  | tooLarge
  | mimeSkip
  | no404
  | exhausted
deriving DecidableEq, Repr

/-- `any(m in mime_type for m in self.ignore_mime_types)`. -/
def mimeIgnored (cfg : Config) (mime : String) : Bool :=
  cfg.ignoreMimeTypes.any (fun m => strContains mime m)

/-- `content_length and int(content_length) > self.max_file_size`. -/
def lenExceeds (cfg : Config) (len : Option Nat) : Bool :=
  match len with
  | some n => if maxFileSizeBytes cfg < n then true else false
  | none => false

/-- The `while attempt < self.retries` loop of `_download_resource`,
by recursion on `retries - attempt` (the `fuel`).  Per iteration: HEAD
(transport error → retry), `break` on HEAD 404, skip on ignored MIME type,
GET + `raise_for_status` (transport error or status ≥ 400 → retry), size
check, success.  Every retry sleeps `2 ** attempt` seconds where `attempt`
has just been incremented.  Returns the outcome and the event trace. -/
def fetchLoopAux (cfg : Config) (w : World) (u : Url) :
    Nat → Nat → LoopRes × List REvent
  | _, 0 => (.exhausted, [])
  | attempt, Nat.succ fuel =>
    match (w.attempt u attempt).headResp with
    | none =>
      let rest := fetchLoopAux cfg w u (attempt + 1) fuel
      (rest.1, .fetchHead attempt :: .backoff (attempt + 1) (2 ^ (attempt + 1)) :: rest.2)
    | some (hstatus, mime) =>
      if hstatus = 404 then (.no404, [.fetchHead attempt])
      else if mimeIgnored cfg mime then (.mimeSkip, [.fetchHead attempt])
      else
        match (w.attempt u attempt).getResp with
        | none =>
          let rest := fetchLoopAux cfg w u (attempt + 1) fuel
          (rest.1, .fetchHead attempt :: .fetchGet attempt ::
            .backoff (attempt + 1) (2 ^ (attempt + 1)) :: rest.2)
        | some (gstatus, len, ctype) =>
          if 400 ≤ gstatus then
            let rest := fetchLoopAux cfg w u (attempt + 1) fuel
            (rest.1, .fetchHead attempt :: .fetchGet attempt ::
              .backoff (attempt + 1) (2 ^ (attempt + 1)) :: rest.2)
          else if 0 < cfg.maxFileSize ∧ lenExceeds cfg len then
            (.tooLarge, [.fetchHead attempt, .fetchGet attempt])
          else (.success len ctype, [.fetchHead attempt, .fetchGet attempt])

/-- The retry loop started with `attempt = 0`. -/
def fetchLoop (cfg : Config) (w : World) (u : Url) : LoopRes × List REvent :=
  fetchLoopAux cfg w u 0 cfg.retries

/-- The mutable run state of a `WebDownloader` instance, together with the
instrumentation traces used by the theorems: the playwright fetches of the
counting pass (`countFetched`, with depth), of the download pass
(`pageFetched`), the successfully downloaded resources in order
(`resourceDownloadedList`), the HTTP events of resource fetches
(`resourceFetches`) and the progress publications (`pubs`). -/
structure RunSt where
  countedUrls : List Url := []
  visitedUrls : List Url := []
  totalResources : Nat := 0
  downloadedResources : Nat := 0
  imagesDownloaded : Nat := 0
  pagesCrawled : Nat := 0
  resourceQueue : List (Url × Url) := []
  downloadCache : List Url := []
  failedDownloads : List Url := []
  pubs : List Pub := []
  countFetched : List (Url × Nat) := []
  pageFetched : List (Url × Nat) := []
  resourceDownloadedList : List Url := []
  resourceFetches : List (Url × REvent) := []
deriving DecidableEq, Repr

/-- `set.add` on a Python set, as an ordered duplicate-free list. -/
def addUrl (s : List Url) (u : Url) : List Url :=
  if u ∈ s then s else s ++ [u]

/-- `WebDownloader.should_stop_crawl`. -/
def shouldStopCrawl (cfg : Config) (st : RunSt) : Bool :=
  if cfg.stopSet then true
  else if cfg.maxPages ≠ 0 ∧ cfg.maxPages ≤ st.pagesCrawled then true
  else false

/-- `WebDownloader.should_stop_downloading_resources`. -/
def shouldStopDownloadingResources (cfg : Config) (st : RunSt) : Bool :=
  if cfg.maxResources ≠ 0 ∧ cfg.maxResources ≤ st.downloadedResources then true
  else if cfg.maxImages ≠ 0 ∧ cfg.maxImages ≤ st.imagesDownloaded then true
  else false

/-- `WebDownloader._update_progress`: publish the computed percentage. -/
def pushPub (st : RunSt) : RunSt :=
  { st with pubs := st.pubs ++
      [⟨st.downloadedResources, st.totalResources,
        updateProgressValue st.downloadedResources st.totalResources⟩] }

/-- `WebDownloader._download_resource url path page_url` (the `path` is the
constant download root and `page_url` is unused by the source, so a task is
just the pair `(resource_url, page_url)`).  The pause gate `pause_event` is
always set in the model. -/
def downloadResource (cfg : Config) (w : World) (st : RunSt) (task : Url × Url) : RunSt :=
  let url := task.1
  if cfg.stopSet then st
  else if shouldStopDownloadingResources cfg st then st
  else if url ∈ st.downloadCache then st
  else if url ∈ st.failedDownloads then st
  else if ¬ canFetch cfg w url then st
  else if cfg.stopSet then st
  else
    let res := fetchLoop cfg w url
    let st := { st with resourceFetches := st.resourceFetches ++ res.2.map (fun e => (url, e)) }
    match res.1 with
    | .mimeSkip => st
    | .tooLarge => st
    | .no404 => { st with failedDownloads := addUrl st.failedDownloads url }
    | .exhausted => { st with failedDownloads := addUrl st.failedDownloads url }
    | .success _ ctype =>
      let st :=
        if strContains ctype "image/" then
          { st with imagesDownloaded := st.imagesDownloaded + 1 }
        else st
      let st := { st with downloadCache := addUrl st.downloadCache url,
                          resourceDownloadedList := st.resourceDownloadedList ++ [url] }
      let st := { st with downloadedResources := st.downloadedResources + 1 }
      pushPub st

/-- The enqueue loop of `_download_page_with_playwright`: for each parsed
resource, unless the resource/image caps are hit, append a task when the
URL is not in the download cache. -/
def enqueueResources (cfg : Config) (pageUrl : Url) : List Url → RunSt → RunSt
  | [], st => st
  | r :: rs, st =>
    if shouldStopDownloadingResources cfg st then st
    else
      let st :=
        if r ∈ st.downloadCache then st
        else { st with resourceQueue := st.resourceQueue ++ [(r, pageUrl)] }
      enqueueResources cfg pageUrl rs st

/-- A fold with the `should_stop_crawl()` break check, the shape of both
`for link in linked_pages` loops. -/
def crawlFold (stop : RunSt → Bool) (g : Url → RunSt → RunSt) : List Url → RunSt → RunSt
  | [], st => st
  | l :: ls, st => if stop st then st else crawlFold stop g ls (g l st)

/-- `WebDownloader._count_total_resources url current_depth`.  `fuel`
bounds the recursion depth; the run starts it at `maxDepth + 1`, which the
depth guard never lets run out. -/
def countVisit (cfg : Config) (w : World) : Nat → Nat → Url → RunSt → RunSt
  | 0, _, _, st => st
  | Nat.succ f, depth, url, st =>
    if shouldStopCrawl cfg st then st
    else if cfg.maxDepth < depth then st
    else if ¬ (url.scheme = "http" ∨ url.scheme = "https") then st
    else if url ∈ st.countedUrls then st
    else if ¬ canFetch cfg w url then st
    else
      let st1 := { st with countedUrls := addUrl st.countedUrls url }
      if cfg.stopSet then st1
      else
        let st2 := { st1 with countFetched := st1.countFetched ++ [(url, depth)] }
        if ¬ w.fetchOk url then st2
        else
          let st3 := { st2 with totalResources :=
            st2.totalResources + ((w.resources url).dedup).length }
          crawlFold (shouldStopCrawl cfg) (countVisit cfg w f (depth + 1)) (w.links url) st3

/-- The `for link in linked_pages` loop of `_count_total_resources`. -/
def countList (cfg : Config) (w : World) (fuel depth : Nat) : List Url → RunSt → RunSt
  | [], st => st
  | l :: ls', st =>
    if shouldStopCrawl cfg st then st
    else countList cfg w fuel depth ls' (countVisit cfg w fuel depth l st)

theorem countList_eq_crawlFold (cfg : Config) (w : World) (fuel depth : Nat) :
    ∀ ls st, countList cfg w fuel depth ls st =
      crawlFold (shouldStopCrawl cfg) (countVisit cfg w fuel depth) ls st := by
  intro ls
  induction ls with
  | nil => intro st; rfl
  | cons l ls ih =>
    intro st
    by_cases h : shouldStopCrawl cfg st <;> simp [countList, crawlFold, h, ih]

theorem countVisit_zero (cfg : Config) (w : World) (depth : Nat) (url : Url) (st : RunSt) :
    countVisit cfg w 0 depth url st = st := rfl

theorem countVisit_succ (cfg : Config) (w : World) (f depth : Nat) (url : Url) (st : RunSt) :
    countVisit cfg w (f + 1) depth url st =
      (if shouldStopCrawl cfg st then st
       else if cfg.maxDepth < depth then st
       else if ¬ (url.scheme = "http" ∨ url.scheme = "https") then st
       else if url ∈ st.countedUrls then st
       else if ¬ canFetch cfg w url then st
       else
         let st1 := { st with countedUrls := addUrl st.countedUrls url }
         if cfg.stopSet then st1
         else
           let st2 := { st1 with countFetched := st1.countFetched ++ [(url, depth)] }
           if ¬ w.fetchOk url then st2
           else
             let st3 := { st2 with totalResources :=
               st2.totalResources + ((w.resources url).dedup).length }
             countList cfg w f (depth + 1) (w.links url) st3) := by
  simp only [countVisit, countList_eq_crawlFold]

/-- `WebDownloader._download_page_with_playwright url path current_depth`. -/
def downVisit (cfg : Config) (w : World) : Nat → Nat → Url → RunSt → RunSt
  | 0, _, _, st => st
  | Nat.succ f, depth, url, st =>
    if shouldStopCrawl cfg st then st
    else if cfg.maxDepth < depth then st
    else if ¬ (url.scheme = "http" ∨ url.scheme = "https") then st
    else if url ∈ st.visitedUrls then st
    else if ¬ canFetch cfg w url then st
    else
      let st1 := { st with visitedUrls := addUrl st.visitedUrls url,
                           pagesCrawled := st.pagesCrawled + 1 }
      if cfg.stopSet then st1
      else
        let st2 := { st1 with pageFetched := st1.pageFetched ++ [(url, depth)] }
        if ¬ w.fetchOk url then st2
        else
          let st3 := enqueueResources cfg url ((w.resources url).dedup) st2
          crawlFold (shouldStopCrawl cfg) (downVisit cfg w f (depth + 1)) (w.links url) st3

/-- The `for link in linked_pages` loop of `_download_page_with_playwright`. -/
def downList (cfg : Config) (w : World) (fuel depth : Nat) : List Url → RunSt → RunSt
  | [], st => st
  | l :: ls', st =>
    if shouldStopCrawl cfg st then st
    else downList cfg w fuel depth ls' (downVisit cfg w fuel depth l st)

theorem downList_eq_crawlFold (cfg : Config) (w : World) (fuel depth : Nat) :
    ∀ ls st, downList cfg w fuel depth ls st =
      crawlFold (shouldStopCrawl cfg) (downVisit cfg w fuel depth) ls st := by
  intro ls
  induction ls with
  | nil => intro st; rfl
  | cons l ls ih =>
    intro st
    by_cases h : shouldStopCrawl cfg st <;> simp [downList, crawlFold, h, ih]

theorem downVisit_zero (cfg : Config) (w : World) (depth : Nat) (url : Url) (st : RunSt) :
    downVisit cfg w 0 depth url st = st := rfl

theorem downVisit_succ (cfg : Config) (w : World) (f depth : Nat) (url : Url) (st : RunSt) :
    downVisit cfg w (f + 1) depth url st =
      (if shouldStopCrawl cfg st then st
       else if cfg.maxDepth < depth then st
       else if ¬ (url.scheme = "http" ∨ url.scheme = "https") then st
       else if url ∈ st.visitedUrls then st
       else if ¬ canFetch cfg w url then st
       else
         let st1 := { st with visitedUrls := addUrl st.visitedUrls url,
                              pagesCrawled := st.pagesCrawled + 1 }
         if cfg.stopSet then st1
         else
           let st2 := { st1 with pageFetched := st1.pageFetched ++ [(url, depth)] }
           if ¬ w.fetchOk url then st2
           else
             let st3 := enqueueResources cfg url ((w.resources url).dedup) st2
             downList cfg w f (depth + 1) (w.links url) st3) := by
  simp only [downVisit, downList_eq_crawlFold]

/-- The seed loop of the counting phase of `download_websites`. -/
def seedLoopCount (cfg : Config) (w : World) : List Url → RunSt → RunSt
  | [], st => st
  | u :: us, st =>
    if shouldStopCrawl cfg st then st
    else seedLoopCount cfg w us (countVisit cfg w (cfg.maxDepth + 1) 0 u st)

/-- The seed loop of the page-download phase of `download_websites`. -/
def seedLoopDown (cfg : Config) (w : World) : List Url → RunSt → RunSt
  | [], st => st
  | u :: us, st =>
    if shouldStopCrawl cfg st then st
    else seedLoopDown cfg w us (downVisit cfg w (cfg.maxDepth + 1) 0 u st)

/-- The resource phase of `download_websites`: iterate over
`set(self.resource_queue)` and download each task (the executor's tasks run
sequentially in the model). -/
def resourceLoop (cfg : Config) (w : World) : List (Url × Url) → RunSt → RunSt
  | [], st => st
  | t :: ts, st =>
    if shouldStopDownloadingResources cfg st ∨ shouldStopCrawl cfg st then st
    else resourceLoop cfg w ts (downloadResource cfg w st t)

/-- The run state right after `__init__` + `load_cache`. -/
def initState (cfg : Config) : RunSt :=
  { downloadCache := cfg.persistedDownloaded, failedDownloads := cfg.persistedFailed }

/-- `WebDownloader.download_websites` with the seed list passed explicitly
(the source iterates `self.base_urls` for both crawling passes): count
resources, download pages, download the deduplicated resource queue, and —
unless the run was stopped — publish the final hard-coded `100`. -/
def runModelSeeds (cfg : Config) (w : World) (seeds : List Url) : RunSt :=
  let st := initState cfg
  let st := seedLoopCount cfg w seeds st
  let st := seedLoopDown cfg w seeds st
  let st := resourceLoop cfg w st.resourceQueue.dedup st
  if cfg.stopSet then st
  else { st with pubs := st.pubs ++ [⟨st.downloadedResources, st.totalResources, 100⟩] }

/-- `WebDownloader.download_websites`. -/
def runModel (cfg : Config) (w : World) : RunSt :=
  runModelSeeds cfg w cfg.baseUrls

/-- The persisted cache as written by `save_cache`. -/
def saveCacheFile (st : RunSt) : CacheFile :=
  ⟨st.downloadCache, st.failedDownloads⟩

/-! ### Frame lemmas: which state fields each operation can touch -/

/-- `st'` differs from `st` at most in the fields the counting pass mutates
(`counted_urls`, `total_resources`, and the count-fetch trace). -/
def CountShape (st st' : RunSt) : Prop :=
  ∃ cs tot cf, st' = { st with countedUrls := cs, totalResources := tot, countFetched := cf }

theorem countShape_rfl (st : RunSt) : CountShape st st :=
  ⟨st.countedUrls, st.totalResources, st.countFetched, rfl⟩

theorem countShape_trans {a b c : RunSt} (h1 : CountShape a b) (h2 : CountShape b c) :
    CountShape a c := by
  obtain ⟨x1, x2, x3, rfl⟩ := h1
  obtain ⟨y1, y2, y3, rfl⟩ := h2
  exact ⟨y1, y2, y3, rfl⟩

theorem countVisit_shape (cfg : Config) (w : World) :
    ∀ fuel, (∀ depth url st, CountShape st (countVisit cfg w fuel depth url st)) ∧
      (∀ depth ls st, CountShape st (countList cfg w fuel depth ls st)) := by
  intro fuel
  induction fuel with
  | zero =>
    have hv : ∀ depth url st, CountShape st (countVisit cfg w 0 depth url st) := by
      intro depth url st
      simp only [countVisit_zero, countVisit_succ]
      exact countShape_rfl st
    refine ⟨hv, ?_⟩
    intro depth ls
    induction ls with
    | nil => intro st; simp only [countList]; exact countShape_rfl st
    | cons l ls ih =>
      intro st
      simp only [countList]
      split
      · exact countShape_rfl st
      · exact countShape_trans (hv _ _ _) (ih _)
  | succ f ihf =>
    have hv : ∀ depth url st, CountShape st (countVisit cfg w (f + 1) depth url st) := by
      intro depth url st
      simp only [countVisit_zero, countVisit_succ]
      split_ifs
      all_goals first
        | exact countShape_rfl st
        | exact ⟨addUrl st.countedUrls url, st.totalResources, st.countFetched, rfl⟩
        | exact ⟨addUrl st.countedUrls url, st.totalResources,
            st.countFetched ++ [(url, depth)], rfl⟩
        | exact countShape_trans
            (⟨addUrl st.countedUrls url,
              st.totalResources + ((w.resources url).dedup).length,
              st.countFetched ++ [(url, depth)], rfl⟩ : CountShape st _)
            (ihf.2 _ _ _)
    refine ⟨hv, ?_⟩
    intro depth ls
    induction ls with
    | nil => intro st; simp only [countList]; exact countShape_rfl st
    | cons l ls ih =>
      intro st
      simp only [countList]
      split
      · exact countShape_rfl st
      · exact countShape_trans (hv _ _ _) (ih _)

theorem seedLoopCount_shape (cfg : Config) (w : World) :
    ∀ seeds st, CountShape st (seedLoopCount cfg w seeds st) := by
  intro seeds
  induction seeds with
  | nil => intro st; simp only [seedLoopCount]; exact countShape_rfl st
  | cons u us ih =>
    intro st
    simp only [seedLoopCount]
    split
    · exact countShape_rfl st
    · exact countShape_trans ((countVisit_shape cfg w _).1 _ _ _) (ih _)

/-- `st'` differs from `st` at most in the fields the page-download pass
mutates (`visited_urls`, `pages_crawled`, the page-fetch trace, and the
resource queue). -/
def DownShape (st st' : RunSt) : Prop :=
  ∃ vs pc pf rq, st' =
    { st with visitedUrls := vs, pagesCrawled := pc, pageFetched := pf, resourceQueue := rq }

theorem downShape_rfl (st : RunSt) : DownShape st st :=
  ⟨st.visitedUrls, st.pagesCrawled, st.pageFetched, st.resourceQueue, rfl⟩

theorem downShape_trans {a b c : RunSt} (h1 : DownShape a b) (h2 : DownShape b c) :
    DownShape a c := by
  obtain ⟨x1, x2, x3, x4, rfl⟩ := h1
  obtain ⟨y1, y2, y3, y4, rfl⟩ := h2
  exact ⟨y1, y2, y3, y4, rfl⟩

theorem enqueueResources_shape (cfg : Config) (pageUrl : Url) :
    ∀ rs st, ∃ rq, enqueueResources cfg pageUrl rs st = { st with resourceQueue := rq } := by
  intro rs
  induction rs with
  | nil => intro st; exact ⟨st.resourceQueue, rfl⟩
  | cons r rs ih =>
    intro st
    simp only [enqueueResources]
    split
    · exact ⟨st.resourceQueue, rfl⟩
    · split
      · exact ih st
      · obtain ⟨rq, h⟩ := ih { st with resourceQueue := st.resourceQueue ++ [(r, pageUrl)] }
        exact ⟨rq, h⟩

theorem downVisit_shape (cfg : Config) (w : World) :
    ∀ fuel, (∀ depth url st, DownShape st (downVisit cfg w fuel depth url st)) ∧
      (∀ depth ls st, DownShape st (downList cfg w fuel depth ls st)) := by
  intro fuel
  induction fuel with
  | zero =>
    have hv : ∀ depth url st, DownShape st (downVisit cfg w 0 depth url st) := by
      intro depth url st
      simp only [downVisit_zero, downVisit_succ]
      exact downShape_rfl st
    refine ⟨hv, ?_⟩
    intro depth ls
    induction ls with
    | nil => intro st; simp only [downList]; exact downShape_rfl st
    | cons l ls ih =>
      intro st
      simp only [downList]
      split
      · exact downShape_rfl st
      · exact downShape_trans (hv _ _ _) (ih _)
  | succ f ihf =>
    have hv : ∀ depth url st, DownShape st (downVisit cfg w (f + 1) depth url st) := by
      intro depth url st
      simp only [downVisit_zero, downVisit_succ]
      split_ifs
      all_goals first
        | exact downShape_rfl st
        | exact ⟨addUrl st.visitedUrls url, st.pagesCrawled + 1, st.pageFetched,
            st.resourceQueue, rfl⟩
        | exact ⟨addUrl st.visitedUrls url, st.pagesCrawled + 1,
            st.pageFetched ++ [(url, depth)], st.resourceQueue, rfl⟩
        | -- the successful-fetch branch through enqueue + the link loop
          (obtain ⟨rq, hq⟩ := enqueueResources_shape cfg url ((w.resources url).dedup)
            { st with visitedUrls := addUrl st.visitedUrls url,
                      pagesCrawled := st.pagesCrawled + 1,
                      pageFetched := st.pageFetched ++ [(url, depth)] }
           rw [hq]
           exact downShape_trans
             (⟨addUrl st.visitedUrls url, st.pagesCrawled + 1,
               st.pageFetched ++ [(url, depth)], rq, rfl⟩ : DownShape st _)
             (ihf.2 _ _ _))
    refine ⟨hv, ?_⟩
    intro depth ls
    induction ls with
    | nil => intro st; simp only [downList]; exact downShape_rfl st
    | cons l ls ih =>
      intro st
      simp only [downList]
      split
      · exact downShape_rfl st
      · exact downShape_trans (hv _ _ _) (ih _)

theorem seedLoopDown_shape (cfg : Config) (w : World) :
    ∀ seeds st, DownShape st (seedLoopDown cfg w seeds st) := by
  intro seeds
  induction seeds with
  | nil => intro st; simp only [seedLoopDown]; exact downShape_rfl st
  | cons u us ih =>
    intro st
    simp only [seedLoopDown]
    split
    · exact downShape_rfl st
    · exact downShape_trans ((downVisit_shape cfg w _).1 _ _ _) (ih _)

/-- `st'` differs from `st` at most in the fields `_download_resource`
mutates. -/
def ResShape (st st' : RunSt) : Prop :=
  ∃ dc fd dr im rl rf ps, st' =
    { st with downloadCache := dc, failedDownloads := fd, downloadedResources := dr,
              imagesDownloaded := im, resourceDownloadedList := rl, resourceFetches := rf,
              pubs := ps }

theorem resShape_rfl (st : RunSt) : ResShape st st :=
  ⟨st.downloadCache, st.failedDownloads, st.downloadedResources, st.imagesDownloaded,
    st.resourceDownloadedList, st.resourceFetches, st.pubs, rfl⟩

theorem resShape_trans {a b c : RunSt} (h1 : ResShape a b) (h2 : ResShape b c) :
    ResShape a c := by
  obtain ⟨x1, x2, x3, x4, x5, x6, x7, rfl⟩ := h1
  obtain ⟨y1, y2, y3, y4, y5, y6, y7, rfl⟩ := h2
  exact ⟨y1, y2, y3, y4, y5, y6, y7, rfl⟩

theorem downloadResource_shape (cfg : Config) (w : World) (st : RunSt) (task : Url × Url) :
    ResShape st (downloadResource cfg w st task) := by
  simp only [downloadResource]
  split_ifs
  all_goals try exact resShape_rfl st
  split
  all_goals first
    | exact ⟨_, _, _, _, _, _, _, rfl⟩
    | (split_ifs <;> exact ⟨_, _, _, _, _, _, _, rfl⟩)

theorem resourceLoop_shape (cfg : Config) (w : World) :
    ∀ ts st, ResShape st (resourceLoop cfg w ts st) := by
  intro ts
  induction ts with
  | nil => intro st; simp only [resourceLoop]; exact resShape_rfl st
  | cons t ts ih =>
    intro st
    simp only [resourceLoop]
    split
    · exact resShape_rfl st
    · exact resShape_trans (downloadResource_shape cfg w st t) (ih _)

/-! ### Set-add and membership helpers -/

theorem mem_addUrl_of_mem {s : List Url} {x u : Url} (h : x ∈ s) : x ∈ addUrl s u := by
  unfold addUrl
  split
  · exact h
  · exact List.mem_append_left _ h

theorem mem_addUrl_self (s : List Url) (u : Url) : u ∈ addUrl s u := by
  unfold addUrl
  split
  · assumption
  · exact List.mem_append_right _ (List.mem_singleton.2 rfl)

theorem shouldStopCrawl_of_free {cfg : Config} (h1 : cfg.stopSet = false)
    (h2 : cfg.maxPages = 0) (st : RunSt) : shouldStopCrawl cfg st = false := by
  simp [shouldStopCrawl, h1, h2]

/-! ### Monotonicity of the dedup sets along the crawl -/

theorem countVisit_mem (cfg : Config) (w : World) :
    ∀ fuel, (∀ depth url st x, x ∈ st.countedUrls →
        x ∈ (countVisit cfg w fuel depth url st).countedUrls) ∧
      (∀ depth ls st x, x ∈ st.countedUrls →
        x ∈ (countList cfg w fuel depth ls st).countedUrls) := by
  intro fuel
  induction fuel with
  | zero =>
    have hv : ∀ depth url st x, x ∈ st.countedUrls →
        x ∈ (countVisit cfg w 0 depth url st).countedUrls := by
      intro depth url st x hx
      simpa only [countVisit_zero, countVisit_succ] using hx
    refine ⟨hv, ?_⟩
    intro depth ls
    induction ls with
    | nil => intro st x hx; simpa only [countList] using hx
    | cons l ls ih =>
      intro st x hx
      simp only [countList]
      split
      · exact hx
      · exact ih _ x (hv _ _ _ _ hx)
  | succ f ihf =>
    have hv : ∀ depth url st x, x ∈ st.countedUrls →
        x ∈ (countVisit cfg w (f + 1) depth url st).countedUrls := by
      intro depth url st x hx
      simp only [countVisit_zero, countVisit_succ]
      split_ifs
      all_goals first
        | exact hx
        | exact mem_addUrl_of_mem hx
        | exact ihf.2 _ _ _ x (mem_addUrl_of_mem hx)
    refine ⟨hv, ?_⟩
    intro depth ls
    induction ls with
    | nil => intro st x hx; simpa only [countList] using hx
    | cons l ls ih =>
      intro st x hx
      simp only [countList]
      split
      · exact hx
      · exact ih _ x (hv _ _ _ _ hx)

theorem downVisit_mem (cfg : Config) (w : World) :
    ∀ fuel, (∀ depth url st x, x ∈ st.visitedUrls →
        x ∈ (downVisit cfg w fuel depth url st).visitedUrls) ∧
      (∀ depth ls st x, x ∈ st.visitedUrls →
        x ∈ (downList cfg w fuel depth ls st).visitedUrls) := by
  intro fuel
  induction fuel with
  | zero =>
    have hv : ∀ depth url st x, x ∈ st.visitedUrls →
        x ∈ (downVisit cfg w 0 depth url st).visitedUrls := by
      intro depth url st x hx
      simpa only [downVisit_zero, downVisit_succ] using hx
    refine ⟨hv, ?_⟩
    intro depth ls
    induction ls with
    | nil => intro st x hx; simpa only [downList] using hx
    | cons l ls ih =>
      intro st x hx
      simp only [downList]
      split
      · exact hx
      · exact ih _ x (hv _ _ _ _ hx)
  | succ f ihf =>
    have hv : ∀ depth url st x, x ∈ st.visitedUrls →
        x ∈ (downVisit cfg w (f + 1) depth url st).visitedUrls := by
      intro depth url st x hx
      simp only [downVisit_zero, downVisit_succ]
      split_ifs
      all_goals try first
        | exact hx
        | exact mem_addUrl_of_mem hx
      -- successful-fetch branch: membership survives enqueue and the link loop
      obtain ⟨rq, hq⟩ := enqueueResources_shape cfg url ((w.resources url).dedup)
        { st with visitedUrls := addUrl st.visitedUrls url,
                  pagesCrawled := st.pagesCrawled + 1,
                  pageFetched := st.pageFetched ++ [(url, depth)] }
      rw [hq]
      exact ihf.2 _ _ _ x (mem_addUrl_of_mem hx)
    refine ⟨hv, ?_⟩
    intro depth ls
    induction ls with
    | nil => intro st x hx; simpa only [downList] using hx
    | cons l ls ih =>
      intro st x hx
      simp only [downList]
      split
      · exact hx
      · exact ih _ x (hv _ _ _ _ hx)

/-! ### Processing a page URL twice in a row is the same as processing it once -/

theorem countVisit_mem_or_eq (cfg : Config) (w : World) (fuel depth : Nat) (u : Url)
    (st : RunSt) :
    countVisit cfg w fuel depth u st = st ∨ u ∈ (countVisit cfg w fuel depth u st).countedUrls := by
  cases fuel with
  | zero => exact Or.inl (by simp only [countVisit_zero, countVisit_succ])
  | succ f =>
    simp only [countVisit_zero, countVisit_succ]
    split_ifs
    all_goals first
      | exact Or.inl rfl
      | exact Or.inr (mem_addUrl_self _ _)
      | exact Or.inr ((countVisit_mem cfg w f).2 _ _ _ u (mem_addUrl_self _ _))

theorem countVisit_of_mem (cfg : Config) (w : World) (fuel depth : Nat) (u : Url) (st : RunSt)
    (hm : u ∈ st.countedUrls) : countVisit cfg w fuel depth u st = st := by
  cases fuel with
  | zero => simp only [countVisit_zero, countVisit_succ]
  | succ f =>
    simp only [countVisit_zero, countVisit_succ]
    split_ifs
    all_goals rfl

theorem countVisit_idem (cfg : Config) (w : World) (fuel depth : Nat) (u : Url) (st : RunSt) :
    countVisit cfg w fuel depth u (countVisit cfg w fuel depth u st) =
      countVisit cfg w fuel depth u st := by
  rcases countVisit_mem_or_eq cfg w fuel depth u st with h | h
  · rw [h, h]
  · exact countVisit_of_mem cfg w fuel depth u _ h

theorem downVisit_mem_or_eq (cfg : Config) (w : World) (fuel depth : Nat) (u : Url)
    (st : RunSt) :
    downVisit cfg w fuel depth u st = st ∨ u ∈ (downVisit cfg w fuel depth u st).visitedUrls := by
  cases fuel with
  | zero => exact Or.inl (by simp only [downVisit_zero, downVisit_succ])
  | succ f =>
    simp only [downVisit_zero, downVisit_succ]
    split_ifs
    all_goals try first
      | exact Or.inl rfl
      | exact Or.inr (mem_addUrl_self _ _)
    refine Or.inr ?_
    obtain ⟨rq, hq⟩ := enqueueResources_shape cfg u ((w.resources u).dedup)
      { st with visitedUrls := addUrl st.visitedUrls u,
                pagesCrawled := st.pagesCrawled + 1,
                pageFetched := st.pageFetched ++ [(u, depth)] }
    rw [hq]
    exact (downVisit_mem cfg w f).2 _ _ _ u (mem_addUrl_self _ _)

theorem downVisit_of_mem (cfg : Config) (w : World) (fuel depth : Nat) (u : Url) (st : RunSt)
    (hm : u ∈ st.visitedUrls) : downVisit cfg w fuel depth u st = st := by
  cases fuel with
  | zero => simp only [downVisit_zero, downVisit_succ]
  | succ f =>
    simp only [downVisit_zero, downVisit_succ]
    split_ifs
    all_goals rfl

theorem downVisit_idem (cfg : Config) (w : World) (fuel depth : Nat) (u : Url) (st : RunSt) :
    downVisit cfg w fuel depth u (downVisit cfg w fuel depth u st) =
      downVisit cfg w fuel depth u st := by
  rcases downVisit_mem_or_eq cfg w fuel depth u st with h | h
  · rw [h, h]
  · exact downVisit_of_mem cfg w fuel depth u _ h

/-! ### Collapsing a duplicated seed URL -/

theorem seedLoopCount_stop (cfg : Config) (w : World) (seeds : List Url) (st : RunSt)
    (h : shouldStopCrawl cfg st = true) : seedLoopCount cfg w seeds st = st := by
  cases seeds with
  | nil => simp only [seedLoopCount]
  | cons u us => simp only [seedLoopCount, h, if_true]

theorem seedLoopDown_stop (cfg : Config) (w : World) (seeds : List Url) (st : RunSt)
    (h : shouldStopCrawl cfg st = true) : seedLoopDown cfg w seeds st = st := by
  cases seeds with
  | nil => simp only [seedLoopDown]
  | cons u us => simp only [seedLoopDown, h, if_true]

theorem seedLoopCount_dup (cfg : Config) (w : World) (A : Url) (us : List Url) (st : RunSt) :
    seedLoopCount cfg w (A :: A :: us) st = seedLoopCount cfg w (A :: us) st := by
  by_cases h : shouldStopCrawl cfg st = true
  · rw [seedLoopCount_stop cfg w _ st h, seedLoopCount_stop cfg w _ st h]
  · simp only [seedLoopCount, h, if_false]
    by_cases h2 : shouldStopCrawl cfg (countVisit cfg w (cfg.maxDepth + 1) 0 A st) = true
    · rw [if_pos h2, seedLoopCount_stop cfg w _ _ h2]
    · rw [if_neg h2, countVisit_idem]

theorem seedLoopDown_dup (cfg : Config) (w : World) (A : Url) (us : List Url) (st : RunSt) :
    seedLoopDown cfg w (A :: A :: us) st = seedLoopDown cfg w (A :: us) st := by
  by_cases h : shouldStopCrawl cfg st = true
  · rw [seedLoopDown_stop cfg w _ st h, seedLoopDown_stop cfg w _ st h]
  · simp only [seedLoopDown, h, if_false]
    by_cases h2 : shouldStopCrawl cfg (downVisit cfg w (cfg.maxDepth + 1) 0 A st) = true
    · rw [if_pos h2, seedLoopDown_stop cfg w _ _ h2]
    · rw [if_neg h2, downVisit_idem]

theorem runModelSeeds_dup (cfg : Config) (w : World) (A : Url) (us : List Url) :
    runModelSeeds cfg w (A :: A :: us) = runModelSeeds cfg w (A :: us) := by
  simp only [runModelSeeds]
  rw [seedLoopCount_dup, seedLoopDown_dup]

/-! ### The fetch traces are duplicate-free -/

/-- A page is fetched only after entering `visited_urls`, and the fetch
trace never repeats a URL. -/
def PageTraceInv (st : RunSt) : Prop :=
  (st.pageFetched.map Prod.fst).Nodup ∧ ∀ x ∈ st.pageFetched, x.1 ∈ st.visitedUrls

theorem pageTraceInv_extend {st : RunSt} (h : PageTraceInv st) {url : Url} (depth : Nat)
    (hnv : url ∉ st.visitedUrls) :
    ((st.pageFetched ++ [(url, depth)]).map Prod.fst).Nodup ∧
      ∀ x ∈ st.pageFetched ++ [(url, depth)], x.1 ∈ addUrl st.visitedUrls url := by
  constructor
  · rw [List.map_append]
    refine List.nodup_append.2 ⟨h.1, List.nodup_singleton _, ?_⟩
    intro a ha hb
    rcases List.mem_map.1 ha with ⟨x, hx, rfl⟩
    rcases List.mem_singleton.1 (by simpa using hb) with rfl
    exact hnv (h.2 x hx)
  · intro x hx
    rcases List.mem_append.1 hx with hx | hx
    · exact mem_addUrl_of_mem (h.2 x hx)
    · rcases List.mem_singleton.1 hx with rfl
      exact mem_addUrl_self _ _

theorem downVisit_pageInv (cfg : Config) (w : World) :
    ∀ fuel, (∀ depth url st, PageTraceInv st →
        PageTraceInv (downVisit cfg w fuel depth url st)) ∧
      (∀ depth ls st, PageTraceInv st → PageTraceInv (downList cfg w fuel depth ls st)) := by
  intro fuel
  induction fuel with
  | zero =>
    have hv : ∀ depth url st, PageTraceInv st → PageTraceInv (downVisit cfg w 0 depth url st) := by
      intro depth url st h
      simpa only [downVisit_zero, downVisit_succ] using h
    refine ⟨hv, ?_⟩
    intro depth ls
    induction ls with
    | nil => intro st h; simpa only [downList] using h
    | cons l ls ih =>
      intro st h
      simp only [downList]
      split
      · exact h
      · exact ih _ (hv _ _ _ h)
  | succ f ihf =>
    have hv : ∀ depth url st, PageTraceInv st →
        PageTraceInv (downVisit cfg w (f + 1) depth url st) := by
      intro depth url st h
      simp only [downVisit_zero, downVisit_succ]
      split_ifs with g1 g2 g3 g4 g5 g6 g7
      any_goals exact h
      -- remaining: stop-after-add (trace unchanged, visited grows),
      -- fetch-failed (trace extended), successful fetch (extend + link loop)
      all_goals first
        | exact ⟨h.1, fun x hx => mem_addUrl_of_mem (h.2 x hx)⟩
        | exact pageTraceInv_extend h depth g4
        | (obtain ⟨rq, hq⟩ := enqueueResources_shape cfg url ((w.resources url).dedup)
             { st with visitedUrls := addUrl st.visitedUrls url,
                       pagesCrawled := st.pagesCrawled + 1,
                       pageFetched := st.pageFetched ++ [(url, depth)] }
           rw [hq]
           exact ihf.2 _ _ _ (pageTraceInv_extend h depth g4))
    refine ⟨hv, ?_⟩
    intro depth ls
    induction ls with
    | nil => intro st h; simpa only [downList] using h
    | cons l ls ih =>
      intro st h
      simp only [downList]
      split
      · exact h
      · exact ih _ (hv _ _ _ h)

theorem seedLoopDown_pageInv (cfg : Config) (w : World) :
    ∀ seeds st, PageTraceInv st → PageTraceInv (seedLoopDown cfg w seeds st) := by
  intro seeds
  induction seeds with
  | nil => intro st h; simpa only [seedLoopDown] using h
  | cons u us ih =>
    intro st h
    simp only [seedLoopDown]
    split
    · exact h
    · exact ih _ ((downVisit_pageInv cfg w _).1 _ _ _ h)

theorem countShape_pageInv {st st' : RunSt} (hs : CountShape st st') (h : PageTraceInv st) :
    PageTraceInv st' := by
  obtain ⟨a, b, c, rfl⟩ := hs
  exact h

theorem resShape_pageInv {st st' : RunSt} (hs : ResShape st st') (h : PageTraceInv st) :
    PageTraceInv st' := by
  obtain ⟨a, b, c, d, e, f, g, rfl⟩ := hs
  exact h

/-- An actually-downloaded resource enters `download_cache` first, and the
download list never repeats a URL. -/
def ResListInv (st : RunSt) : Prop :=
  st.resourceDownloadedList.Nodup ∧ ∀ x ∈ st.resourceDownloadedList, x ∈ st.downloadCache

theorem downloadResource_resListInv (cfg : Config) (w : World) (st : RunSt) (task : Url × Url)
    (h : ResListInv st) : ResListInv (downloadResource cfg w st task) := by
  simp only [downloadResource, pushPub]
  split_ifs with g1 g2 g3 g4 g5
  any_goals exact h
  split
  any_goals exact h
  -- success outcome: url was not in download_cache (guard g3)
  split_ifs
  all_goals {
    constructor
    · refine List.nodup_append.2 ⟨h.1, List.nodup_singleton _, ?_⟩
      intro a ha hb
      rcases List.mem_singleton.1 (by simpa using hb) with rfl
      exact g3 (h.2 _ ha)
    · intro x hx
      rcases List.mem_append.1 hx with hx | hx
      · exact mem_addUrl_of_mem (h.2 x hx)
      · rcases List.mem_singleton.1 hx with rfl
        exact mem_addUrl_self _ _ }

theorem resourceLoop_resListInv (cfg : Config) (w : World) :
    ∀ ts st, ResListInv st → ResListInv (resourceLoop cfg w ts st) := by
  intro ts
  induction ts with
  | nil => intro st h; simpa only [resourceLoop] using h
  | cons t ts ih =>
    intro st h
    simp only [resourceLoop]
    split
    · exact h
    · exact ih _ (downloadResource_resListInv cfg w st t h)

theorem countShape_resListInv {st st' : RunSt} (hs : CountShape st st') (h : ResListInv st) :
    ResListInv st' := by
  obtain ⟨a, b, c, rfl⟩ := hs
  exact h

theorem downShape_resListInv {st st' : RunSt} (hs : DownShape st st') (h : ResListInv st) :
    ResListInv st' := by
  obtain ⟨a, b, c, d, rfl⟩ := hs
  exact h

/-! ### Depth guards: no fetch beyond `max_depth`, nothing beyond the seeds at depth 0 -/

theorem downVisit_depthBound (cfg : Config) (w : World) :
    ∀ fuel, (∀ depth url st, (∀ pr ∈ st.pageFetched, pr.2 ≤ cfg.maxDepth) →
        ∀ pr ∈ (downVisit cfg w fuel depth url st).pageFetched, pr.2 ≤ cfg.maxDepth) ∧
      (∀ depth ls st, (∀ pr ∈ st.pageFetched, pr.2 ≤ cfg.maxDepth) →
        ∀ pr ∈ (downList cfg w fuel depth ls st).pageFetched, pr.2 ≤ cfg.maxDepth) := by
  intro fuel
  induction fuel with
  | zero =>
    have hv : ∀ depth url st, (∀ pr ∈ st.pageFetched, pr.2 ≤ cfg.maxDepth) →
        ∀ pr ∈ (downVisit cfg w 0 depth url st).pageFetched, pr.2 ≤ cfg.maxDepth := by
      intro depth url st h
      simpa only [downVisit_zero, downVisit_succ] using h
    refine ⟨hv, ?_⟩
    intro depth ls
    induction ls with
    | nil => intro st h; simpa only [downList] using h
    | cons l ls ih =>
      intro st h
      simp only [downList]
      split
      · exact h
      · exact ih _ (hv _ _ _ h)
  | succ f ihf =>
    have hv : ∀ depth url st, (∀ pr ∈ st.pageFetched, pr.2 ≤ cfg.maxDepth) →
        ∀ pr ∈ (downVisit cfg w (f + 1) depth url st).pageFetched, pr.2 ≤ cfg.maxDepth := by
      intro depth url st h
      simp only [downVisit_zero, downVisit_succ]
      split_ifs with g1 g2 g3 g4 g5 g6 g7
      any_goals exact h
      all_goals first
        | -- trace extended by (url, depth) with depth ≤ max_depth from the guard
          (intro pr hpr
           rcases List.mem_append.1 hpr with hpr | hpr
           · exact h pr hpr
           · rcases List.mem_singleton.1 hpr with rfl
             exact Nat.not_lt.1 g2)
        | (obtain ⟨rq, hq⟩ := enqueueResources_shape cfg url ((w.resources url).dedup)
             { st with visitedUrls := addUrl st.visitedUrls url,
                       pagesCrawled := st.pagesCrawled + 1,
                       pageFetched := st.pageFetched ++ [(url, depth)] }
           rw [hq]
           refine ihf.2 _ _ _ ?_
           intro pr hpr
           rcases List.mem_append.1 hpr with hpr | hpr
           · exact h pr hpr
           · rcases List.mem_singleton.1 hpr with rfl
             exact Nat.not_lt.1 g2)
    refine ⟨hv, ?_⟩
    intro depth ls
    induction ls with
    | nil => intro st h; simpa only [downList] using h
    | cons l ls ih =>
      intro st h
      simp only [downList]
      split
      · exact h
      · exact ih _ (hv _ _ _ h)

theorem countVisit_depthBound (cfg : Config) (w : World) :
    ∀ fuel, (∀ depth url st, (∀ pr ∈ st.countFetched, pr.2 ≤ cfg.maxDepth) →
        ∀ pr ∈ (countVisit cfg w fuel depth url st).countFetched, pr.2 ≤ cfg.maxDepth) ∧
      (∀ depth ls st, (∀ pr ∈ st.countFetched, pr.2 ≤ cfg.maxDepth) →
        ∀ pr ∈ (countList cfg w fuel depth ls st).countFetched, pr.2 ≤ cfg.maxDepth) := by
  intro fuel
  induction fuel with
  | zero =>
    have hv : ∀ depth url st, (∀ pr ∈ st.countFetched, pr.2 ≤ cfg.maxDepth) →
        ∀ pr ∈ (countVisit cfg w 0 depth url st).countFetched, pr.2 ≤ cfg.maxDepth := by
      intro depth url st h
      simpa only [countVisit_zero, countVisit_succ] using h
    refine ⟨hv, ?_⟩
    intro depth ls
    induction ls with
    | nil => intro st h; simpa only [countList] using h
    | cons l ls ih =>
      intro st h
      simp only [countList]
      split
      · exact h
      · exact ih _ (hv _ _ _ h)
  | succ f ihf =>
    have hv : ∀ depth url st, (∀ pr ∈ st.countFetched, pr.2 ≤ cfg.maxDepth) →
        ∀ pr ∈ (countVisit cfg w (f + 1) depth url st).countFetched, pr.2 ≤ cfg.maxDepth := by
      intro depth url st h
      simp only [countVisit_zero, countVisit_succ]
      split_ifs with g1 g2 g3 g4 g5 g6 g7
      any_goals exact h
      all_goals first
        | (intro pr hpr
           rcases List.mem_append.1 hpr with hpr | hpr
           · exact h pr hpr
           · rcases List.mem_singleton.1 hpr with rfl
             exact Nat.not_lt.1 g2)
        | (refine ihf.2 _ _ _ ?_
           intro pr hpr
           rcases List.mem_append.1 hpr with hpr | hpr
           · exact h pr hpr
           · rcases List.mem_singleton.1 hpr with rfl
             exact Nat.not_lt.1 g2)
    refine ⟨hv, ?_⟩
    intro depth ls
    induction ls with
    | nil => intro st h; simpa only [countList] using h
    | cons l ls ih =>
      intro st h
      simp only [countList]
      split
      · exact h
      · exact ih _ (hv _ _ _ h)

theorem downVisit_beyond (cfg : Config) (w : World) (fuel depth : Nat) (u : Url) (st : RunSt)
    (h : cfg.maxDepth < depth) : downVisit cfg w fuel depth u st = st := by
  cases fuel with
  | zero => simp only [downVisit_zero, downVisit_succ]
  | succ f =>
    simp only [downVisit_zero, downVisit_succ]
    split_ifs
    all_goals rfl

theorem downList_beyond (cfg : Config) (w : World) (fuel depth : Nat) (st : RunSt)
    (ls : List Url) (h : cfg.maxDepth < depth) : downList cfg w fuel depth ls st = st := by
  induction ls generalizing st with
  | nil => simp only [downList]
  | cons l ls ih =>
    simp only [downList]
    split
    · rfl
    · rw [downVisit_beyond cfg w fuel depth l st h]; exact ih st

theorem countVisit_beyond (cfg : Config) (w : World) (fuel depth : Nat) (u : Url) (st : RunSt)
    (h : cfg.maxDepth < depth) : countVisit cfg w fuel depth u st = st := by
  cases fuel with
  | zero => simp only [countVisit_zero, countVisit_succ]
  | succ f =>
    simp only [countVisit_zero, countVisit_succ]
    split_ifs
    all_goals rfl

theorem countList_beyond (cfg : Config) (w : World) (fuel depth : Nat) (st : RunSt)
    (ls : List Url) (h : cfg.maxDepth < depth) : countList cfg w fuel depth ls st = st := by
  induction ls generalizing st with
  | nil => simp only [countList]
  | cons l ls ih =>
    simp only [countList]
    split
    · rfl
    · rw [countVisit_beyond cfg w fuel depth l st h]; exact ih st

theorem downVisit_zero_seeds (cfg : Config) (w : World) (hz : cfg.maxDepth = 0)
    (fuel : Nat) (u : Url) (st : RunSt) :
    ∀ x ∈ (downVisit cfg w fuel 0 u st).pageFetched, x ∈ st.pageFetched ∨ x.1 = u := by
  cases fuel with
  | zero => intro x hx; exact Or.inl (by simpa only [downVisit_zero, downVisit_succ] using hx)
  | succ f =>
    simp only [downVisit_zero, downVisit_succ]
    split_ifs
    any_goals (intro x hx; left; exact hx)
    all_goals first
      | (intro x hx
         rcases List.mem_append.1 hx with hx | hx
         · exact Or.inl hx
         · rcases List.mem_singleton.1 hx with rfl
           exact Or.inr rfl)
      | (obtain ⟨rq, hq⟩ := enqueueResources_shape cfg u ((w.resources u).dedup)
           { st with visitedUrls := addUrl st.visitedUrls u,
                     pagesCrawled := st.pagesCrawled + 1,
                     pageFetched := st.pageFetched ++ [(u, 0)] }
         rw [hq, downList_beyond cfg w f (0 + 1) _ _ (by omega)]
         intro x hx
         rcases List.mem_append.1 hx with hx | hx
         · exact Or.inl hx
         · rcases List.mem_singleton.1 hx with rfl
           exact Or.inr rfl)

theorem seedLoopDown_zero_seeds (cfg : Config) (w : World) (hz : cfg.maxDepth = 0) :
    ∀ seeds st, ∀ x ∈ (seedLoopDown cfg w seeds st).pageFetched,
      x ∈ st.pageFetched ∨ x.1 ∈ seeds := by
  intro seeds
  induction seeds with
  | nil => intro st x hx; exact Or.inl (by simpa only [seedLoopDown] using hx)
  | cons u us ih =>
    intro st x hx
    simp only [seedLoopDown] at hx
    split at hx
    · exact Or.inl hx
    · rcases ih _ x hx with hx2 | hx2
      · rcases downVisit_zero_seeds cfg w hz _ u st x hx2 with hx3 | hx3
        · exact Or.inl hx3
        · exact Or.inr (by simp [hx3])
      · exact Or.inr (List.mem_cons_of_mem _ hx2)

theorem countVisit_zero_seeds (cfg : Config) (w : World) (hz : cfg.maxDepth = 0)
    (fuel : Nat) (u : Url) (st : RunSt) :
    ∀ x ∈ (countVisit cfg w fuel 0 u st).countFetched, x ∈ st.countFetched ∨ x.1 = u := by
  cases fuel with
  | zero => intro x hx; exact Or.inl (by simpa only [countVisit_zero, countVisit_succ] using hx)
  | succ f =>
    simp only [countVisit_zero, countVisit_succ]
    split_ifs
    any_goals (intro x hx; left; exact hx)
    all_goals first
      | (intro x hx
         rcases List.mem_append.1 hx with hx | hx
         · exact Or.inl hx
         · rcases List.mem_singleton.1 hx with rfl
           exact Or.inr rfl)
      | (rw [countList_beyond cfg w f (0 + 1) _ _ (by omega)]
         intro x hx
         rcases List.mem_append.1 hx with hx | hx
         · exact Or.inl hx
         · rcases List.mem_singleton.1 hx with rfl
           exact Or.inr rfl)

theorem seedLoopCount_zero_seeds (cfg : Config) (w : World) (hz : cfg.maxDepth = 0) :
    ∀ seeds st, ∀ x ∈ (seedLoopCount cfg w seeds st).countFetched,
      x ∈ st.countFetched ∨ x.1 ∈ seeds := by
  intro seeds
  induction seeds with
  | nil => intro st x hx; exact Or.inl (by simpa only [seedLoopCount] using hx)
  | cons u us ih =>
    intro st x hx
    simp only [seedLoopCount] at hx
    split at hx
    · exact Or.inl hx
    · rcases ih _ x hx with hx2 | hx2
      · rcases countVisit_zero_seeds cfg w hz _ u st x hx2 with hx3 | hx3
        · exact Or.inl hx3
        · exact Or.inr (by simp [hx3])
      · exact Or.inr (List.mem_cons_of_mem _ hx2)

/-! ### With no stop signal and no page cap, both passes visit the same pages -/

theorem addUrl_not_mem {s : List Url} {u : Url} (h : u ∉ s) : addUrl s u = s ++ [u] := by
  simp [addUrl, h]

theorem count_down_sim (cfg : Config) (w : World) (h1 : cfg.stopSet = false)
    (h2 : cfg.maxPages = 0) :
    ∀ fuel, (∀ depth url cs ds, cs.countedUrls = ds.visitedUrls →
        (countVisit cfg w fuel depth url cs).countedUrls =
          (downVisit cfg w fuel depth url ds).visitedUrls) ∧
      (∀ depth ls cs ds, cs.countedUrls = ds.visitedUrls →
        (countList cfg w fuel depth ls cs).countedUrls =
          (downList cfg w fuel depth ls ds).visitedUrls) := by
  intro fuel
  induction fuel with
  | zero =>
    have hv : ∀ depth url cs ds, cs.countedUrls = ds.visitedUrls →
        (countVisit cfg w 0 depth url cs).countedUrls =
          (downVisit cfg w 0 depth url ds).visitedUrls := by
      intro depth url cs ds h
      simpa only [countVisit_zero, downVisit_zero] using h
    refine ⟨hv, ?_⟩
    intro depth ls
    induction ls with
    | nil => intro cs ds h; simpa only [countList, downList] using h
    | cons l ls ih =>
      intro cs ds h
      simp only [countList, downList, shouldStopCrawl_of_free h1 h2, Bool.false_eq_true,
        if_false]
      exact ih _ _ (hv _ _ _ _ h)
  | succ f ihf =>
    have hv : ∀ depth url cs ds, cs.countedUrls = ds.visitedUrls →
        (countVisit cfg w (f + 1) depth url cs).countedUrls =
          (downVisit cfg w (f + 1) depth url ds).visitedUrls := by
      intro depth url cs ds h
      simp only [countVisit_succ, downVisit_succ, shouldStopCrawl_of_free h1 h2, Bool.false_eq_true,
        if_false, h1, h]
      split_ifs
      any_goals exact h
      any_goals rfl
      -- the aligned successful-fetch branches
      refine ihf.2 _ _ _ _ ?_
      obtain ⟨rq, hq⟩ := enqueueResources_shape cfg url ((w.resources url).dedup)
        { ds with visitedUrls := addUrl ds.visitedUrls url,
                  pagesCrawled := ds.pagesCrawled + 1,
                  pageFetched := ds.pageFetched ++ [(url, depth)] }
      rw [hq]
    refine ⟨hv, ?_⟩
    intro depth ls
    induction ls with
    | nil => intro cs ds h; simpa only [countList, downList] using h
    | cons l ls ih =>
      intro cs ds h
      simp only [countList, downList, shouldStopCrawl_of_free h1 h2, Bool.false_eq_true,
        if_false]
      exact ih _ _ (hv _ _ _ _ h)

theorem seedLoop_sim (cfg : Config) (w : World) (h1 : cfg.stopSet = false)
    (h2 : cfg.maxPages = 0) :
    ∀ seeds cs ds, cs.countedUrls = ds.visitedUrls →
      (seedLoopCount cfg w seeds cs).countedUrls =
        (seedLoopDown cfg w seeds ds).visitedUrls := by
  intro seeds
  induction seeds with
  | nil => intro cs ds h; simpa only [seedLoopCount, seedLoopDown] using h
  | cons u us ih =>
    intro cs ds h
    simp only [seedLoopCount, seedLoopDown, shouldStopCrawl_of_free h1 h2, Bool.false_eq_true,
      if_false]
    exact ih _ _ ((count_down_sim cfg w h1 h2 _).1 _ _ _ _ h)

/-! ### The counting pass computes the weight of the pages it visited -/

/-- How much one page contributes to `total_resources`: the size of its
parsed resource set when the playwright fetch succeeds, nothing otherwise. -/
def pageWeight (w : World) (p : Url) : Nat :=
  if w.fetchOk p then ((w.resources p).dedup).length else 0

/-- The total `_count_total_resources` accumulates over a list of visited
pages. -/
def weightOf (w : World) (v : List Url) : Nat :=
  (v.map (pageWeight w)).sum

theorem weightOf_append (w : World) (v : List Url) (u : Url) :
    weightOf w (v ++ [u]) = weightOf w v + pageWeight w u := by
  simp [weightOf]

theorem countVisit_weight (cfg : Config) (w : World) (h1 : cfg.stopSet = false) :
    ∀ fuel, (∀ depth url st, st.totalResources = weightOf w st.countedUrls →
        (countVisit cfg w fuel depth url st).totalResources =
          weightOf w (countVisit cfg w fuel depth url st).countedUrls) ∧
      (∀ depth ls st, st.totalResources = weightOf w st.countedUrls →
        (countList cfg w fuel depth ls st).totalResources =
          weightOf w (countList cfg w fuel depth ls st).countedUrls) := by
  intro fuel
  induction fuel with
  | zero =>
    have hv : ∀ depth url st, st.totalResources = weightOf w st.countedUrls →
        (countVisit cfg w 0 depth url st).totalResources =
          weightOf w (countVisit cfg w 0 depth url st).countedUrls := by
      intro depth url st h
      simpa only [countVisit_zero, countVisit_succ] using h
    refine ⟨hv, ?_⟩
    intro depth ls
    induction ls with
    | nil => intro st h; simpa only [countList] using h
    | cons l ls ih =>
      intro st h
      simp only [countList]
      split
      · exact h
      · exact ih _ (hv _ _ _ h)
  | succ f ihf =>
    have hv : ∀ depth url st, st.totalResources = weightOf w st.countedUrls →
        (countVisit cfg w (f + 1) depth url st).totalResources =
          weightOf w (countVisit cfg w (f + 1) depth url st).countedUrls := by
      intro depth url st h
      simp only [countVisit_succ, h1, Bool.false_eq_true, if_false]
      split_ifs with g1 g2 g3 g4 g5 g6
      any_goals exact h
      · -- successful fetch: the page contributes its resource-set size
        refine ihf.2 _ _ _ ?_
        show st.totalResources + ((w.resources url).dedup).length =
          weightOf w (addUrl st.countedUrls url)
        rw [addUrl_not_mem g4, weightOf_append, h, pageWeight, if_pos (by simpa using g6)]
      · -- playwright fetch failed: nothing counted, the page weighs 0
        show st.totalResources = weightOf w (addUrl st.countedUrls url)
        rw [addUrl_not_mem g4, weightOf_append, h, pageWeight, if_neg (by simp [g6])]
        omega
    refine ⟨hv, ?_⟩
    intro depth ls
    induction ls with
    | nil => intro st h; simpa only [countList] using h
    | cons l ls ih =>
      intro st h
      simp only [countList]
      split
      · exact h
      · exact ih _ (hv _ _ _ h)

theorem seedLoopCount_weight (cfg : Config) (w : World) (h1 : cfg.stopSet = false) :
    ∀ seeds st, st.totalResources = weightOf w st.countedUrls →
      (seedLoopCount cfg w seeds st).totalResources =
        weightOf w (seedLoopCount cfg w seeds st).countedUrls := by
  intro seeds
  induction seeds with
  | nil => intro st h; simpa only [seedLoopCount] using h
  | cons u us ih =>
    intro st h
    simp only [seedLoopCount]
    split
    · exact h
    · exact ih _ ((countVisit_weight cfg w h1 _).1 _ _ _ h)

/-! ### Every queued resource task comes from a successfully fetched visited page -/

/-- Every task in `resource_queue` was parsed out of a page that is in
`visited_urls` and whose playwright fetch succeeded. -/
def QueueInv (w : World) (st : RunSt) : Prop :=
  ∀ t ∈ st.resourceQueue, t.2 ∈ st.visitedUrls ∧ w.fetchOk t.2 = true ∧
    t.1 ∈ (w.resources t.2).dedup

theorem enqueueResources_queueInv (cfg : Config) (w : World) (pageUrl : Url) :
    ∀ rs st, QueueInv w st → pageUrl ∈ st.visitedUrls → w.fetchOk pageUrl = true →
      (∀ r ∈ rs, r ∈ (w.resources pageUrl).dedup) →
      QueueInv w (enqueueResources cfg pageUrl rs st) := by
  intro rs
  induction rs with
  | nil => intro st h _ _ _; simpa only [enqueueResources] using h
  | cons r rs ih =>
    intro st h hm hf hr
    simp only [enqueueResources]
    split
    · exact h
    · split
      · exact ih st h hm hf (fun x hx => hr x (List.mem_cons_of_mem _ hx))
      · refine ih _ ?_ hm hf (fun x hx => hr x (List.mem_cons_of_mem _ hx))
        intro t ht
        rcases List.mem_append.1 ht with ht | ht
        · exact h t ht
        · rcases List.mem_singleton.1 ht with rfl
          exact ⟨hm, hf, hr r (List.mem_cons_self _ _)⟩

theorem downVisit_queueInv (cfg : Config) (w : World) :
    ∀ fuel, (∀ depth url st, QueueInv w st → QueueInv w (downVisit cfg w fuel depth url st)) ∧
      (∀ depth ls st, QueueInv w st → QueueInv w (downList cfg w fuel depth ls st)) := by
  intro fuel
  induction fuel with
  | zero =>
    have hv : ∀ depth url st, QueueInv w st → QueueInv w (downVisit cfg w 0 depth url st) := by
      intro depth url st h
      simpa only [downVisit_zero, downVisit_succ] using h
    refine ⟨hv, ?_⟩
    intro depth ls
    induction ls with
    | nil => intro st h; simpa only [downList] using h
    | cons l ls ih =>
      intro st h
      simp only [downList]
      split
      · exact h
      · exact ih _ (hv _ _ _ h)
  | succ f ihf =>
    have hv : ∀ depth url st, QueueInv w st →
        QueueInv w (downVisit cfg w (f + 1) depth url st) := by
      intro depth url st h
      have hgrow : ∀ (pc : Nat) (pf : List (Url × Nat)), QueueInv w
          { st with
            visitedUrls := addUrl st.visitedUrls url
            pagesCrawled := pc
            pageFetched := pf } := by
        intro pc pf t ht
        obtain ⟨ha, hb, hc⟩ := h t ht
        exact ⟨mem_addUrl_of_mem ha, hb, hc⟩
      simp only [downVisit_zero, downVisit_succ]
      split_ifs with g1 g2 g3 g4 g5 g6 g7
      any_goals exact h
      any_goals exact hgrow _ _
      -- successful fetch: enqueue from the added page, then the link loop
      refine ihf.2 _ _ _ ?_
      refine enqueueResources_queueInv cfg w url _ _ (hgrow _ _) (mem_addUrl_self _ _)
        (by assumption) (fun x hx => hx)
    refine ⟨hv, ?_⟩
    intro depth ls
    induction ls with
    | nil => intro st h; simpa only [downList] using h
    | cons l ls ih =>
      intro st h
      simp only [downList]
      split
      · exact h
      · exact ih _ (hv _ _ _ h)

theorem seedLoopDown_queueInv (cfg : Config) (w : World) :
    ∀ seeds st, QueueInv w st → QueueInv w (seedLoopDown cfg w seeds st) := by
  intro seeds
  induction seeds with
  | nil => intro st h; simpa only [seedLoopDown] using h
  | cons u us ih =>
    intro st h
    simp only [seedLoopDown]
    split
    · exact h
    · exact ih _ ((downVisit_queueInv cfg w _).1 _ _ _ h)

/-! ### Resource-phase invariants: counters, publications, provenance -/

/-- The bundle of facts the resource phase maintains: the download counter
equals the length of the download list, every publication carries the
(fixed) total, the published value is the computed percentage, the
published count never exceeds the current counter, and every downloaded
URL came from `q`. -/
def RpInv (q : List Url) (st : RunSt) : Prop :=
  st.downloadedResources = st.resourceDownloadedList.length ∧
  (∀ p ∈ st.pubs, p.total = st.totalResources ∧
    p.value = updateProgressValue p.downloaded p.total ∧
    p.downloaded ≤ st.downloadedResources) ∧
  (∀ x ∈ st.resourceDownloadedList, x ∈ q)

theorem downloadResource_rpInv (cfg : Config) (w : World) (st : RunSt) (task : Url × Url)
    (q : List Url) (ht : task.1 ∈ q) (h : RpInv q st) :
    RpInv q (downloadResource cfg w st task) := by
  simp only [downloadResource, pushPub]
  split_ifs with g1 g2 g3 g4 g5
  any_goals exact h
  split
  any_goals exact h
  obtain ⟨hlen, hpubs, hq⟩ := h
  -- success: counter, list and publications all extend consistently
  split_ifs
  all_goals {
    refine ⟨by simp [hlen], ?_, ?_⟩
    · intro p hp
      rcases List.mem_append.1 hp with hp | hp
      · obtain ⟨ha, hb, hc⟩ := hpubs p hp
        exact ⟨ha, hb, Nat.le_succ_of_le hc⟩
      · rcases List.mem_singleton.1 hp with rfl
        exact ⟨rfl, rfl, Nat.le_refl _⟩
    · intro x hx
      rcases List.mem_append.1 hx with hx | hx
      · exact hq x hx
      · rcases List.mem_singleton.1 hx with rfl
        exact ht }

theorem resourceLoop_rpInv (cfg : Config) (w : World) (q : List Url) :
    ∀ ts st, (∀ t ∈ ts, (t : Url × Url).1 ∈ q) → RpInv q st →
      RpInv q (resourceLoop cfg w ts st) := by
  intro ts
  induction ts with
  | nil => intro st _ h; simpa only [resourceLoop] using h
  | cons t ts ih =>
    intro st hts h
    simp only [resourceLoop]
    split
    · exact h
    · exact ih _ (fun x hx => hts x (List.mem_cons_of_mem _ hx))
        (downloadResource_rpInv cfg w st t q (hts t (List.mem_cons_self _ _)) h)

/-! ### Run decomposition -/

/-- The state after the two crawling passes of `download_websites`. -/
def downState (cfg : Config) (w : World) (seeds : List Url) : RunSt :=
  seedLoopDown cfg w seeds (seedLoopCount cfg w seeds (initState cfg))

/-- The state after the resource phase, before the final callback. -/
def runCore (cfg : Config) (w : World) (seeds : List Url) : RunSt :=
  resourceLoop cfg w (downState cfg w seeds).resourceQueue.dedup (downState cfg w seeds)

theorem runModelSeeds_eq_core (cfg : Config) (w : World) (seeds : List Url) :
    runModelSeeds cfg w seeds =
      if cfg.stopSet then runCore cfg w seeds
      else { runCore cfg w seeds with pubs := (runCore cfg w seeds).pubs ++
        [⟨(runCore cfg w seeds).downloadedResources, (runCore cfg w seeds).totalResources, 100⟩] } :=
  rfl

theorem downState_facts (cfg : Config) (w : World) (seeds : List Url) :
    (downState cfg w seeds).pubs = [] ∧
    (downState cfg w seeds).downloadedResources = 0 ∧
    (downState cfg w seeds).resourceDownloadedList = [] ∧
    (downState cfg w seeds).totalResources =
      (seedLoopCount cfg w seeds (initState cfg)).totalResources ∧
    (downState cfg w seeds).countedUrls =
      (seedLoopCount cfg w seeds (initState cfg)).countedUrls ∧
    (downState cfg w seeds).downloadCache = cfg.persistedDownloaded := by
  obtain ⟨a, b, c, h1⟩ := seedLoopCount_shape cfg w seeds (initState cfg)
  obtain ⟨d, e, f, g, h2⟩ := seedLoopDown_shape cfg w seeds
    (seedLoopCount cfg w seeds (initState cfg))
  unfold downState
  rw [h2, h1]
  simp [initState]

theorem seedLoopCount_visited_nil (cfg : Config) (w : World) (seeds : List Url) :
    (seedLoopCount cfg w seeds (initState cfg)).visitedUrls = [] := by
  obtain ⟨a, b, c, h1⟩ := seedLoopCount_shape cfg w seeds (initState cfg)
  rw [h1]
  simp [initState]

theorem seedLoopCount_queue_nil (cfg : Config) (w : World) (seeds : List Url) :
    (seedLoopCount cfg w seeds (initState cfg)).resourceQueue = [] := by
  obtain ⟨a, b, c, h1⟩ := seedLoopCount_shape cfg w seeds (initState cfg)
  rw [h1]
  simp [initState]

theorem runCore_resShape (cfg : Config) (w : World) (seeds : List Url) :
    ResShape (downState cfg w seeds) (runCore cfg w seeds) :=
  resourceLoop_shape cfg w _ _

/-- The length of the per-page resource lists of the visited pages. -/
theorem flatMap_weight (w : World) (v : List Url) :
    (v.flatMap (fun p => if w.fetchOk p then (w.resources p).dedup else [])).length =
      weightOf w v := by
  induction v with
  | nil => rfl
  | cons a l ih =>
    by_cases hf : w.fetchOk a
    · simp [weightOf, pageWeight, List.flatMap_cons, hf, List.map_cons, List.sum_cons] at *
      omega
    · simp [weightOf, pageWeight, List.flatMap_cons, hf, List.map_cons, List.sum_cons] at *
      omega

theorem runCore_rpInv (cfg : Config) (w : World) (seeds : List Url) :
    RpInv ((downState cfg w seeds).resourceQueue.dedup.map Prod.fst) (runCore cfg w seeds) := by
  obtain ⟨hpubs, hdl, hrl, _, _, _⟩ := downState_facts cfg w seeds
  refine resourceLoop_rpInv cfg w _ _ _ (fun t ht => List.mem_map_of_mem _ ht) ?_
  refine ⟨by rw [hdl, hrl]; rfl, ?_, ?_⟩
  · rw [hpubs]; intro p hp; cases hp
  · rw [hrl]; intro x hx; cases hx

theorem runCore_resListInv (cfg : Config) (w : World) (seeds : List Url) :
    ResListInv (runCore cfg w seeds) := by
  refine resourceLoop_resListInv cfg w _ _ ?_
  refine downShape_resListInv (seedLoopDown_shape cfg w seeds _) ?_
  refine countShape_resListInv (seedLoopCount_shape cfg w seeds _) ?_
  exact ⟨List.nodup_nil, fun x hx => absurd hx (List.not_mem_nil x)⟩

theorem runCore_queueInv (cfg : Config) (w : World) (seeds : List Url) :
    QueueInv w (downState cfg w seeds) := by
  refine seedLoopDown_queueInv cfg w seeds _ ?_
  intro t ht
  rw [seedLoopCount_queue_nil] at ht
  cases ht

/-- The central counting bound: on a stop-free, page-cap-free run the
number of successfully downloaded resources never exceeds the counted
total. -/
theorem runCore_bound (cfg : Config) (w : World) (seeds : List Url)
    (h1 : cfg.stopSet = false) (h2 : cfg.maxPages = 0) :
    (runCore cfg w seeds).downloadedResources ≤ (runCore cfg w seeds).totalResources := by
  obtain ⟨hpubs, hdl, hrl, htot, hcnt, _⟩ := downState_facts cfg w seeds
  obtain ⟨hlen, _, hfromq⟩ := runCore_rpInv cfg w seeds
  obtain ⟨hnodup, _⟩ := runCore_resListInv cfg w seeds
  obtain ⟨a, b, c, d, e, f, g, hshape⟩ := runCore_resShape cfg w seeds
  -- the big list: all resources of all successfully fetched visited pages
  have hsub : (runCore cfg w seeds).resourceDownloadedList ⊆
      (downState cfg w seeds).visitedUrls.flatMap
        (fun p => if w.fetchOk p then (w.resources p).dedup else []) := by
    intro x hx
    have hq := hfromq x hx
    rcases List.mem_map.1 hq with ⟨t, htd, rfl⟩
    have htq : t ∈ (downState cfg w seeds).resourceQueue := List.mem_dedup.1 htd
    obtain ⟨hv, hf, hr⟩ := runCore_queueInv cfg w seeds t htq
    refine List.mem_flatMap.2 ⟨t.2, hv, ?_⟩
    rw [if_pos hf]
    exact hr
  have hle : (runCore cfg w seeds).resourceDownloadedList.length ≤
      ((downState cfg w seeds).visitedUrls.flatMap
        (fun p => if w.fetchOk p then (w.resources p).dedup else [])).length :=
    (List.subperm_of_subset hnodup hsub).length_le
  have hvc : (downState cfg w seeds).visitedUrls =
      (seedLoopCount cfg w seeds (initState cfg)).countedUrls := by
    unfold downState
    refine (seedLoop_sim cfg w h1 h2 seeds (initState cfg) _ ?_).symm
    rw [seedLoopCount_visited_nil]
    rfl
  have hwt : (seedLoopCount cfg w seeds (initState cfg)).totalResources =
      weightOf w (seedLoopCount cfg w seeds (initState cfg)).countedUrls :=
    seedLoopCount_weight cfg w h1 seeds (initState cfg) rfl
  have htot3 : (runCore cfg w seeds).totalResources = (downState cfg w seeds).totalResources := by
    rw [hshape]
  rw [htot3, htot, hwt, hlen]
  calc (runCore cfg w seeds).resourceDownloadedList.length ≤ _ := hle
    _ = weightOf w (downState cfg w seeds).visitedUrls := flatMap_weight w _
    _ = weightOf w (seedLoopCount cfg w seeds (initState cfg)).countedUrls := by rw [hvc]

/-! ### Seed-level wrappers for the trace facts -/

theorem seedLoopDown_depthBound (cfg : Config) (w : World) :
    ∀ seeds st, (∀ pr ∈ st.pageFetched, pr.2 ≤ cfg.maxDepth) →
      ∀ pr ∈ (seedLoopDown cfg w seeds st).pageFetched, pr.2 ≤ cfg.maxDepth := by
  intro seeds
  induction seeds with
  | nil => intro st h; simpa only [seedLoopDown] using h
  | cons u us ih =>
    intro st h
    simp only [seedLoopDown]
    split
    · exact h
    · exact ih _ ((downVisit_depthBound cfg w _).1 _ _ _ h)

theorem seedLoopCount_depthBound (cfg : Config) (w : World) :
    ∀ seeds st, (∀ pr ∈ st.countFetched, pr.2 ≤ cfg.maxDepth) →
      ∀ pr ∈ (seedLoopCount cfg w seeds st).countFetched, pr.2 ≤ cfg.maxDepth := by
  intro seeds
  induction seeds with
  | nil => intro st h; simpa only [seedLoopCount] using h
  | cons u us ih =>
    intro st h
    simp only [seedLoopCount]
    split
    · exact h
    · exact ih _ ((countVisit_depthBound cfg w _).1 _ _ _ h)

theorem runModelSeeds_traces (cfg : Config) (w : World) (seeds : List Url) :
    (runModelSeeds cfg w seeds).pageFetched = (downState cfg w seeds).pageFetched ∧
    (runModelSeeds cfg w seeds).countFetched = (downState cfg w seeds).countFetched ∧
    (runModelSeeds cfg w seeds).resourceDownloadedList =
      (runCore cfg w seeds).resourceDownloadedList ∧
    (runModelSeeds cfg w seeds).totalResources = (runCore cfg w seeds).totalResources := by
  obtain ⟨a, b, c, d, e, f, g, hshape⟩ := runCore_resShape cfg w seeds
  rw [runModelSeeds_eq_core]
  split
  · rw [hshape]; exact ⟨rfl, rfl, rfl, rfl⟩
  · rw [hshape]; exact ⟨rfl, rfl, rfl, rfl⟩

theorem downState_pageFetched_init (cfg : Config) (w : World) (seeds : List Url) :
    (seedLoopCount cfg w seeds (initState cfg)).pageFetched = [] := by
  obtain ⟨a, b, c, h1⟩ := seedLoopCount_shape cfg w seeds (initState cfg)
  rw [h1]
  simp [initState]

theorem downState_countFetched (cfg : Config) (w : World) (seeds : List Url) :
    (downState cfg w seeds).countFetched =
      (seedLoopCount cfg w seeds (initState cfg)).countFetched := by
  obtain ⟨d, e, f, g, h2⟩ := seedLoopDown_shape cfg w seeds
    (seedLoopCount cfg w seeds (initState cfg))
  unfold downState
  rw [h2]

/-! ### The timed model of `_download_resource` for the cancellation claim -/

/-- Instrumentation events of the timed `_download_resource`: each carries
the time at which it happens.  A stop-check event records the value the
check read; a fetch event marks an HTTP request (HEAD or GET) starting;
a backoff event is the `time.sleep(2 ** attempt)` of a retry; a rate-sleep
event is the `time.sleep(self.rate_limit)` after a successful write. -/
inductive TEvent where
  | stopCheck (t : Nat) (wasSet : Bool)
  | fetch (t : Nat) (attempt : Nat)
  | backoff (t : Nat) (attempt : Nat) (wait : Nat)
  | rateSleep (t : Nat)
deriving DecidableEq, Repr

/-- `stop_event.is_set()` read at time `t` when the signal is raised at
time `stopAt`. -/
def timedStop (stopAt t : Nat) : Bool :=
  if stopAt ≤ t then true else false

/-- The retry loop of `_download_resource` with an explicit clock: an HTTP
request advances time by 1, a backoff sleep by its wait.  The loop body
(source lines 484–513) contains **no** stop-event check, which this
function mirrors: nothing in it consults the stop signal. -/
def timedLoop (cfg : Config) (w : World) (u : Url) : Nat → Nat → Nat → List TEvent
  | _, 0, _ => []
  | attempt, Nat.succ fuel, t =>
    match (w.attempt u attempt).headResp with
    | none =>
      TEvent.fetch t attempt :: TEvent.backoff (t + 1) (attempt + 1) (2 ^ (attempt + 1)) ::
        timedLoop cfg w u (attempt + 1) fuel (t + 1 + 2 ^ (attempt + 1))
    | some (hstatus, mime) =>
      if hstatus = 404 then [TEvent.fetch t attempt]
      else if mimeIgnored cfg mime then [TEvent.fetch t attempt]
      else
        match (w.attempt u attempt).getResp with
        | none =>
          TEvent.fetch t attempt :: TEvent.fetch (t + 1) attempt ::
            TEvent.backoff (t + 2) (attempt + 1) (2 ^ (attempt + 1)) ::
            timedLoop cfg w u (attempt + 1) fuel (t + 2 + 2 ^ (attempt + 1))
        | some (gstatus, len, _) =>
          if 400 ≤ gstatus then
            TEvent.fetch t attempt :: TEvent.fetch (t + 1) attempt ::
              TEvent.backoff (t + 2) (attempt + 1) (2 ^ (attempt + 1)) ::
              timedLoop cfg w u (attempt + 1) fuel (t + 2 + 2 ^ (attempt + 1))
          else if 0 < cfg.maxFileSize ∧ lenExceeds cfg len then
            [TEvent.fetch t attempt, TEvent.fetch (t + 1) attempt]
          else
            [TEvent.fetch t attempt, TEvent.fetch (t + 1) attempt, TEvent.rateSleep (t + 2)]

/-- `_download_resource` with the stop event raised at time `stopAt`
(instrumented variant of `downloadResource`; all pre-loop steps are
instantaneous, so they all read the clock at 0).  The two recorded
stop-check events are the ones at the top of the function and after the
pause gate; the scope filter's own stop read is inside `canFetchAt`. -/
def downloadResourceTimed (cfg : Config) (w : World) (stopAt : Nat) (st : RunSt) (u : Url) :
    List TEvent :=
  TEvent.stopCheck 0 (timedStop stopAt 0) ::
    (if timedStop stopAt 0 then []
     else if shouldStopDownloadingResources cfg st then []
     else if u ∈ st.downloadCache then []
     else if u ∈ st.failedDownloads then []
     else if ¬ canFetchAt cfg w (timedStop stopAt 0) u then []
     else
       TEvent.stopCheck 0 (timedStop stopAt 0) ::
         (if timedStop stopAt 0 then [] else timedLoop cfg w u 0 cfg.retries 0))

/-- Is the event the start of an HTTP request? -/
def isFetchEvent : TEvent → Bool
  | .fetch _ _ => true
  | _ => false

/-- Is the event a read of the stop signal? -/
def isStopCheckEvent : TEvent → Bool
  | .stopCheck _ _ => true
  | _ => false

theorem timedLoop_no_stopCheck (cfg : Config) (w : World) (u : Url) :
    ∀ fuel attempt t, ∀ e ∈ timedLoop cfg w u attempt fuel t, isStopCheckEvent e = false := by
  intro fuel
  induction fuel with
  | zero => intro attempt t e he; cases he
  | succ f ih =>
    intro attempt t e he
    simp only [timedLoop] at he
    repeat' split at he
    all_goals
      repeat'
        first
          | exact ih _ _ e he
          | (rcases he with _ | ⟨_, he⟩
             · rfl)
          | cases he

theorem downloadResourceTimed_stopped (cfg : Config) (w : World) (st : RunSt) (u : Url) :
    downloadResourceTimed cfg w 0 st u = [TEvent.stopCheck 0 true] := by
  simp [downloadResourceTimed, timedStop]

/-! ### Retry-loop facts for the error-handling claim -/

theorem fetchLoop_head404 (cfg : Config) (w : World) (u : Url) (m : String)
    (hr : 0 < cfg.retries) (h404 : (w.attempt u 0).headResp = some (404, m)) :
    fetchLoop cfg w u = (.no404, [.fetchHead 0]) := by
  obtain ⟨n, hn⟩ : ∃ n, cfg.retries = n + 1 := ⟨cfg.retries - 1, by omega⟩
  rw [fetchLoop, hn]
  simp [fetchLoopAux, h404]

theorem fetchLoopAux_transient (cfg : Config) (w : World) (u : Url)
    (htr : ∀ i, (w.attempt u i).headResp = none) :
    ∀ fuel attempt, fetchLoopAux cfg w u attempt fuel =
      (.exhausted, (List.range' attempt fuel).flatMap
        (fun i => [REvent.fetchHead i, REvent.backoff (i + 1) (2 ^ (i + 1))])) := by
  intro fuel
  induction fuel with
  | zero => intro attempt; simp [fetchLoopAux]
  | succ f ih =>
    intro attempt
    rw [List.range'_succ]
    simp [fetchLoopAux, htr attempt, ih (attempt + 1)]

theorem fetchLoop_transient (cfg : Config) (w : World) (u : Url)
    (htr : ∀ i, (w.attempt u i).headResp = none) :
    fetchLoop cfg w u = (.exhausted, (List.range' 0 cfg.retries).flatMap
      (fun i => [REvent.fetchHead i, REvent.backoff (i + 1) (2 ^ (i + 1))])) :=
  fetchLoopAux_transient cfg w u htr cfg.retries 0

theorem downloadResource_cached (cfg : Config) (w : World) (st : RunSt) (u p : Url)
    (h : u ∈ st.downloadCache) : downloadResource cfg w st (u, p) = st := by
  simp only [downloadResource]
  split_ifs <;> rfl

theorem downloadResource_failedSkip (cfg : Config) (w : World) (st : RunSt) (u p : Url)
    (h : u ∈ st.failedDownloads) : downloadResource cfg w st (u, p) = st := by
  simp only [downloadResource]
  split_ifs <;> rfl

theorem downloadResource_failedMark (cfg : Config) (w : World) (st : RunSt) (u p : Url)
    (h1 : cfg.stopSet = false) (h2 : shouldStopDownloadingResources cfg st = false)
    (hc : u ∉ st.downloadCache) (hf : u ∉ st.failedDownloads)
    (hcf : canFetch cfg w u = true)
    (hres : (fetchLoop cfg w u).1 = LoopRes.no404 ∨ (fetchLoop cfg w u).1 = LoopRes.exhausted) :
    (downloadResource cfg w st (u, p)).failedDownloads = addUrl st.failedDownloads u := by
  simp only [downloadResource]
  split_ifs
  any_goals (exfalso; simp_all; done)
  all_goals
    rcases hres with hres | hres <;>
      rcases hsplit : (fetchLoop cfg w u).1 with _ | _ | _ | _ | _ <;> simp_all

/-! ### Session headers never carry conditional validators -/

theorem headerSet_keys {hs : List (String × String)} {k v : String} :
    ∀ kv ∈ headerSet hs k v, kv.1 = k ∨ kv ∈ hs := by
  intro kv hkv
  unfold headerSet at hkv
  split at hkv
  · rcases List.mem_map.1 hkv with ⟨p, hp, rfl⟩
    split
    · exact Or.inl rfl
    · exact Or.inr hp
  · rcases List.mem_append.1 hkv with hkv | hkv
    · exact Or.inr hkv
    · rcases List.mem_singleton.1 hkv with rfl
      exact Or.inl rfl

theorem sessionHeaders_no_validators (cfg : Config)
    (hch : ∀ h ∈ cfg.customHeaders,
      (h : String × String).1 ≠ "If-None-Match" ∧ h.1 ≠ "If-Modified-Since") :
    ∀ kv ∈ sessionHeaders cfg,
      (kv : String × String).1 ≠ "If-None-Match" ∧ kv.1 ≠ "If-Modified-Since" := by
  have base : ∀ kv ∈ [("User-Agent", cfg.userAgent)],
      (kv : String × String).1 ≠ "If-None-Match" ∧ kv.1 ≠ "If-Modified-Since" := by
    intro kv hkv
    rcases List.mem_singleton.1 hkv with rfl
    exact ⟨by change "User-Agent" ≠ "If-None-Match"; decide,
      by change "User-Agent" ≠ "If-Modified-Since"; decide⟩
  have fold : ∀ (l : List (String × String)) (acc : List (String × String)),
      (∀ h ∈ l, (h : String × String).1 ≠ "If-None-Match" ∧ h.1 ≠ "If-Modified-Since") →
      (∀ kv ∈ acc, (kv : String × String).1 ≠ "If-None-Match" ∧ kv.1 ≠ "If-Modified-Since") →
      ∀ kv ∈ l.foldl
        (fun hs h => if h.1 ≠ "" ∧ h.2 ≠ "" then headerSet hs h.1 h.2 else hs) acc,
        (kv : String × String).1 ≠ "If-None-Match" ∧ kv.1 ≠ "If-Modified-Since" := by
    intro l
    induction l with
    | nil => intro acc _ hacc kv hkv; exact hacc kv hkv
    | cons hd tl ih =>
      intro acc hl hacc kv hkv
      simp only [List.foldl_cons] at hkv
      refine ih _ (fun x hx => hl x (List.mem_cons_of_mem _ hx)) ?_ kv hkv
      intro x hx
      by_cases hcond : hd.1 ≠ "" ∧ hd.2 ≠ ""
      · rw [if_pos hcond] at hx
        rcases headerSet_keys x hx with hx1 | hx1
        · rw [hx1]; exact hl hd (List.mem_cons_self _ _)
        · exact hacc x hx1
      · rw [if_neg hcond] at hx
        exact hacc x hx
  intro kv hkv
  simp only [sessionHeaders] at hkv
  by_cases htok : cfg.authToken ≠ ""
  · rw [if_pos htok] at hkv
    rcases headerSet_keys kv hkv with hk | hk
    · rw [hk]; exact ⟨by decide, by decide⟩
    · exact fold cfg.customHeaders _ hch base kv hk
  · rw [if_neg htok] at hkv
    exact fold cfg.customHeaders _ hch base kv hkv

theorem fetchLoop_304 (cfg : Config) (w : World) (u : Url) (s : Nat) (m : String)
    (len : Option Nat) (ct : String) (hr : 0 < cfg.retries)
    (hhead : (w.attempt u 0).headResp = some (s, m)) (hs : s ≠ 404)
    (hm : mimeIgnored cfg m = false)
    (hget : (w.attempt u 0).getResp = some (304, len, ct)) (hsz : cfg.maxFileSize = 0) :
    fetchLoop cfg w u = (.success len ct, [.fetchHead 0, .fetchGet 0]) := by
  obtain ⟨n, hn⟩ : ∃ n, cfg.retries = n + 1 := ⟨cfg.retries - 1, by omega⟩
  rw [fetchLoop, hn]
  simp [fetchLoopAux, hhead, hs, hm, hget, hsz]

/-! ### The flatten layout produces `<host>/<filename>` with a bare filename -/

theorem basenameChars_no_slash : ∀ (cs acc : List Char), (∀ c ∈ acc, c ≠ '/') →
    ∀ c ∈ cs.foldl (fun acc c => if c = '/' then [] else acc ++ [c]) acc, c ≠ '/' := by
  intro cs
  induction cs with
  | nil => intro acc hacc c hc; exact hacc c hc
  | cons a cs ih =>
    intro acc hacc c hc
    simp only [List.foldl_cons] at hc
    refine ih _ ?_ c hc
    by_cases ha : a = '/'
    · rw [if_pos ha]; intro x hx; cases hx
    · rw [if_neg ha]
      intro x hx
      rcases List.mem_append.1 hx with hx | hx
      · exact hacc x hx
      · rcases List.mem_singleton.1 hx with rfl
        exact ha

/-! ### The flatten layout, decomposed for the layout claim -/

/-- The index-document suffixing `_get_relative_path` applies first. -/
def indexedPath (u : Url) : String :=
  let path := u.path
  if path.data.getLast? = some '/' then path ++ "index.html"
  else if splitextExt path = "" then path ++ "/index.html"
  else path

/-- The filename `_get_relative_path` uses in `flatten` mode. -/
def flattenName (u : Url) : String :=
  let filename := basenameStr (indexedPath u)
  if filename = "" then "index.html" else filename

theorem getRelativePath_eq (cfg : Config) (u : Url) :
    getRelativePath cfg u =
      (if cfg.downloadStructure = "flatten" then osJoin u.netloc (flattenName u)
       else osJoin u.netloc
         (String.mk ((indexedPath u).data.dropWhile (fun c => c = '/')))) := rfl

theorem flattenName_ne_empty (u : Url) : flattenName u ≠ "" := by
  by_cases h : basenameStr (indexedPath u) = ""
  · simp [flattenName, h]
  · simp [flattenName, h]

theorem flattenName_no_slash (u : Url) : ∀ c ∈ (flattenName u).data, c ≠ '/' := by
  by_cases h : basenameStr (indexedPath u) = ""
  · rw [show flattenName u = "index.html" by simp [flattenName, h]]
    decide
  · rw [show flattenName u = basenameStr (indexedPath u) by simp [flattenName, h]]
    intro c hc
    exact basenameChars_no_slash _ [] (fun x hx => absurd hx (List.not_mem_nil x)) c hc

/-! ### Concrete URLs, worlds and configurations for witnesses and counterexamples -/

/-- A seed page URL. -/
def seedUrl : Url := { scheme := "https", netloc := "site.test", path := "/" }

/-- A stylesheet resource on the seed's host. -/
def cssUrl : Url := { scheme := "https", netloc := "site.test", path := "/x/style.css" }

/-- A URL on a subdomain host of the seed. -/
def otherHostUrl : Url := { scheme := "https", netloc := "sub.site.test", path := "/" }

/-- One page holding one resource; its origin answers every HEAD with 404. -/
def world404 : World :=
  { fetchOk := fun _ => true
    resources := fun u => if u = seedUrl then [cssUrl] else []
    links := fun _ => []
    robotsAllow := fun _ => true
    attempt := fun _ _ => { headResp := some (404, ""), getResp := none } }

/-- One page holding one resource; the origin serves everything. -/
def worldOk : World :=
  { fetchOk := fun _ => true
    resources := fun u => if u = seedUrl then [cssUrl] else []
    links := fun _ => []
    robotsAllow := fun _ => true
    attempt := fun _ _ =>
      { headResp := some (200, "text/css"), getResp := some (200, some 5, "text/css") } }

/-- An origin that fails every request with a transport error. -/
def worldDown : World :=
  { fetchOk := fun _ => true
    resources := fun u => if u = seedUrl then [cssUrl] else []
    links := fun _ => []
    robotsAllow := fun _ => true
    attempt := fun _ _ => { headResp := none, getResp := none } }

/-- An origin that answers every GET with HTTP 403. -/
def world403 : World :=
  { worldDown with attempt := fun _ _ =>
      { headResp := some (200, "text/html"), getResp := some (403, none, "") } }

/-- An origin that answers every GET with HTTP 304 and an empty body. -/
def world304 : World :=
  { worldDown with attempt := fun _ _ =>
      { headResp := some (200, "text/css"), getResp := some (304, some 0, "text/css") } }

/-- A page with no resources and no links. -/
def worldEmpty : World :=
  { fetchOk := fun _ => true
    resources := fun _ => []
    links := fun _ => []
    robotsAllow := fun _ => true
    attempt := fun _ _ => {} }

/-! ### The claims -/

/-- **C1** (counterexample).  The claim states that *every* published
progress value equals `floor(downloaded_resources / total_resources * 100)`
clamped to 100.  On a run that counts one resource whose download then
fails (HEAD 404), the only publication of the run is the final hard-coded
100 from `download_websites`, while the formula gives
`floor(0 / 1 * 100) = 0` — so the claim is false as stated. -/
theorem c1_counterexample :
    ∃ p ∈ (runModel { baseUrls := [seedUrl] } world404).pubs,
      p.value ≠ updateProgressValue p.downloaded p.total := by decide

/-- **C1** (amended).  On a stop-free run (stop event unset, no
`max_pages` cap): every progress publication triggered by a resource
outcome equals `floor(downloaded * 100 / total)` clamped to 100 (100 when
the total is 0), `downloaded_resources ≤ total_resources` holds at every
publication including the final one, and the run ends by publishing the
hard-coded value 100 regardless of the ratio. -/
theorem c1_progress_amended (cfg : Config) (w : World) (seeds : List Url)
    (h1 : cfg.stopSet = false) (h2 : cfg.maxPages = 0) :
    (∀ p ∈ (runModelSeeds cfg w seeds).pubs, p.downloaded ≤ p.total) ∧
    (∀ p ∈ (runModelSeeds cfg w seeds).pubs.dropLast,
      p.value = updateProgressValue p.downloaded p.total) ∧
    ((runModelSeeds cfg w seeds).pubs.getLast?.map Pub.value = some 100) := by
  obtain ⟨hlen, hpubs, hq⟩ := runCore_rpInv cfg w seeds
  have hbd := runCore_bound cfg w seeds h1 h2
  rw [runModelSeeds_eq_core, if_neg (by simp [h1])]
  refine ⟨?_, ?_, ?_⟩
  · intro p hp
    rcases List.mem_append.1 hp with hp | hp
    · obtain ⟨ha, hb, hc⟩ := hpubs p hp
      rw [ha]
      exact le_trans hc hbd
    · rcases List.mem_singleton.1 hp with rfl
      exact hbd
  · intro p hp
    rw [List.dropLast_concat] at hp
    exact (hpubs p hp).2.1
  · rw [List.getLast?_concat]
    rfl

/-- **C1** witness: the amended statement at a concrete stop-free run. -/
theorem c1_progress_amended_witness :
    (∀ p ∈ (runModelSeeds { baseUrls := [seedUrl] } worldOk [seedUrl]).pubs,
      p.downloaded ≤ p.total) ∧
    (∀ p ∈ (runModelSeeds { baseUrls := [seedUrl] } worldOk [seedUrl]).pubs.dropLast,
      p.value = updateProgressValue p.downloaded p.total) ∧
    ((runModelSeeds { baseUrls := [seedUrl] } worldOk [seedUrl]).pubs.getLast?.map Pub.value =
      some 100) :=
  c1_progress_amended { baseUrls := [seedUrl] } worldOk [seedUrl] rfl rfl

/-- **C2** (confirmed).  Visited-set deduplication: seeding the same URL
twice yields exactly the run obtained from seeding it once, each page URL
is fetched (and recorded in `visited_pages`) at most once per run, and
each resource URL is downloaded at most once per run. -/
theorem c2_dedup :
    (∀ (cfg : Config) (w : World) (A : Url) (us : List Url),
      runModelSeeds cfg w (A :: A :: us) = runModelSeeds cfg w (A :: us)) ∧
    (∀ (cfg : Config) (w : World) (seeds : List Url),
      ((runModelSeeds cfg w seeds).pageFetched.map Prod.fst).Nodup) ∧
    (∀ (cfg : Config) (w : World) (seeds : List Url),
      (runModelSeeds cfg w seeds).resourceDownloadedList.Nodup) := by
  refine ⟨fun cfg w A us => runModelSeeds_dup cfg w A us, ?_, ?_⟩
  · intro cfg w seeds
    have h1 : PageTraceInv (initState cfg) :=
      ⟨List.nodup_nil, fun x hx => absurd hx (List.not_mem_nil x)⟩
    have h2 := countShape_pageInv (seedLoopCount_shape cfg w seeds (initState cfg)) h1
    have h3 := seedLoopDown_pageInv cfg w seeds _ h2
    rw [(runModelSeeds_traces cfg w seeds).1]
    exact h3.1
  · intro cfg w seeds
    rw [(runModelSeeds_traces cfg w seeds).2.2.1]
    exact (runCore_resListInv cfg w seeds).1

/-- **C3** (confirmed).  Depth limiting: every page fetched during either
the counting pass or the download pass was reached at a recursion depth at
most `max_depth`, and when `max_depth = 0` only the seed URLs themselves
are ever fetched. -/
theorem c3_depth :
    (∀ (cfg : Config) (w : World) (seeds : List Url),
      (∀ pr ∈ (runModelSeeds cfg w seeds).pageFetched, pr.2 ≤ cfg.maxDepth) ∧
      (∀ pr ∈ (runModelSeeds cfg w seeds).countFetched, pr.2 ≤ cfg.maxDepth)) ∧
    (∀ (cfg : Config) (w : World) (seeds : List Url), cfg.maxDepth = 0 →
      (∀ pr ∈ (runModelSeeds cfg w seeds).pageFetched, pr.1 ∈ seeds) ∧
      (∀ pr ∈ (runModelSeeds cfg w seeds).countFetched, pr.1 ∈ seeds)) := by
  constructor
  · intro cfg w seeds
    constructor
    · intro pr hpr
      rw [(runModelSeeds_traces cfg w seeds).1] at hpr
      refine seedLoopDown_depthBound cfg w seeds _ ?_ pr hpr
      rw [downState_pageFetched_init]
      exact fun x hx => absurd hx (List.not_mem_nil x)
    · intro pr hpr
      rw [(runModelSeeds_traces cfg w seeds).2.1, downState_countFetched] at hpr
      refine seedLoopCount_depthBound cfg w seeds (initState cfg) ?_ pr hpr
      exact fun x hx => absurd hx (List.not_mem_nil x)
  · intro cfg w seeds hz
    constructor
    · intro pr hpr
      rw [(runModelSeeds_traces cfg w seeds).1] at hpr
      rcases seedLoopDown_zero_seeds cfg w hz seeds _ pr hpr with h | h
      · rw [downState_pageFetched_init] at h
        exact absurd h (List.not_mem_nil pr)
      · exact h
    · intro pr hpr
      rw [(runModelSeeds_traces cfg w seeds).2.1, downState_countFetched] at hpr
      rcases seedLoopCount_zero_seeds cfg w hz seeds (initState cfg) pr hpr with h | h
      · exact absurd h (List.not_mem_nil pr)
      · exact h

/-- **C2** witness: seeding the same URL twice collapses to one run. -/
theorem c2_dedup_witness :
    runModelSeeds { baseUrls := [seedUrl] } worldOk [seedUrl, seedUrl] =
      runModelSeeds { baseUrls := [seedUrl] } worldOk [seedUrl] :=
  c2_dedup.1 { baseUrls := [seedUrl] } worldOk seedUrl []

/-- **C3** witness: the depth bound and the zero-depth seed restriction at
a concrete run. -/
theorem c3_depth_witness :
    ((seedUrl, 0) : Url × Nat).2 ≤ ({ baseUrls := [seedUrl] } : Config).maxDepth ∧
    ((seedUrl, 0) : Url × Nat).1 ∈ [seedUrl] :=
  ⟨(c3_depth.1 { baseUrls := [seedUrl] } worldOk [seedUrl]).1 (seedUrl, 0) (by decide),
   (c3_depth.2 { baseUrls := [seedUrl], maxDepth := 0 } worldOk [seedUrl] rfl).1
     (seedUrl, 0) (by decide)⟩

/-- **C4** (counterexample).  The claim describes conditional requests:
`If-None-Match` / `If-Modified-Since` headers built from cached validators
and a 304-handling path that serves the cached copy.  The code has none of
this: the session carries only `User-Agent` (plus any custom headers and
`Authorization`), a URL in the download cache is skipped with no request
at all, and a 304 response is treated as any other non-error response —
`raise_for_status` does not fire and the (empty) body is written. -/
theorem c4_counterexample :
    sessionHeaders { baseUrls := [seedUrl], userAgent := "ua" } = [("User-Agent", "ua")] ∧
    downloadResource { baseUrls := [seedUrl] } world304
        { initState { baseUrls := [seedUrl] } with downloadCache := [cssUrl] } (cssUrl, seedUrl) =
      { initState { baseUrls := [seedUrl] } with downloadCache := [cssUrl] } ∧
    fetchLoop { baseUrls := [seedUrl] } world304 cssUrl =
      (.success (some 0) "text/css", [.fetchHead 0, .fetchGet 0]) := by
  decide

/-- **C4** (amended).  The cache is a plain skip-list: the session sends
no `If-None-Match` or `If-Modified-Since` header (unless the user supplies
one as a custom header), a URL present in `download_cache` is skipped
without any network request, a 304 reply is handled as a success whose
body is written as-is, and the persisted cache file stores exactly the
downloaded-URL and failed-URL sets. -/
theorem c4_cache_amended :
    (∀ cfg : Config, (∀ h ∈ cfg.customHeaders,
        (h : String × String).1 ≠ "If-None-Match" ∧ h.1 ≠ "If-Modified-Since") →
      ∀ kv ∈ sessionHeaders cfg,
        (kv : String × String).1 ≠ "If-None-Match" ∧ kv.1 ≠ "If-Modified-Since") ∧
    (∀ (cfg : Config) (w : World) (st : RunSt) (u p : Url),
      u ∈ st.downloadCache → downloadResource cfg w st (u, p) = st) ∧
    (∀ (cfg : Config) (w : World) (u : Url) (s : Nat) (m : String)
        (len : Option Nat) (ct : String), 0 < cfg.retries →
      (w.attempt u 0).headResp = some (s, m) → s ≠ 404 → mimeIgnored cfg m = false →
      (w.attempt u 0).getResp = some (304, len, ct) → cfg.maxFileSize = 0 →
      fetchLoop cfg w u = (.success len ct, [.fetchHead 0, .fetchGet 0])) ∧
    (∀ st : RunSt, saveCacheFile st = ⟨st.downloadCache, st.failedDownloads⟩) :=
  ⟨sessionHeaders_no_validators, downloadResource_cached, fetchLoop_304, fun _ => rfl⟩

/-- **C4** witness: the amended statement at concrete inputs — the lone
session header is not a validator, and a 304 reply comes back as a
success. -/
theorem c4_cache_amended_witness :
    ((("User-Agent", "ua") : String × String).1 ≠ "If-None-Match" ∧
      (("User-Agent", "ua") : String × String).1 ≠ "If-Modified-Since") ∧
    fetchLoop { baseUrls := [seedUrl], userAgent := "ua" } world304 cssUrl =
      (.success (some 0) "text/css", [.fetchHead 0, .fetchGet 0]) :=
  ⟨c4_cache_amended.1 { baseUrls := [seedUrl], userAgent := "ua" } (by decide)
      ("User-Agent", "ua") (by decide),
    c4_cache_amended.2.2.1 { baseUrls := [seedUrl], userAgent := "ua" } world304 cssUrl
      200 "text/css" (some 0) "text/css" (by decide) rfl (by decide) (by decide) rfl rfl⟩

/-- **C5** (counterexample).  The claim says the stop event is honoured
"including between retry attempts, so a stop request takes effect without
waiting for the remaining backoff sleeps".  With 2 retries against an
origin that always raises a transport error, raising the stop signal at
time 2 — during the first backoff sleep — still lets the second attempt's
HTTP request start at time 3: the retry loop contains no stop check, so
the in-flight resource finishes all its attempts and sleeps. -/
theorem c5_counterexample :
    downloadResourceTimed { baseUrls := [seedUrl], retries := 2 } worldDown 2
        (initState { baseUrls := [seedUrl], retries := 2 }) cssUrl =
      [TEvent.stopCheck 0 false, TEvent.stopCheck 0 false, TEvent.fetch 0 0,
        TEvent.backoff 1 1 2, TEvent.fetch 3 1, TEvent.backoff 4 2 4] ∧
    (∃ e ∈ downloadResourceTimed { baseUrls := [seedUrl], retries := 2 } worldDown 2
        (initState { baseUrls := [seedUrl], retries := 2 }) cssUrl,
      e = TEvent.fetch 3 1 ∧ timedStop 2 3 = true) := by
  decide

/-- **C5** (amended).  The stop event is checked before a resource
download begins — a resource whose processing starts after the signal is
raised performs no request — but never inside the retry loop: once the
attempt loop is entered, no event it emits is a stop-signal read, so
raising the signal mid-resource cuts short neither the remaining attempts
nor their backoff sleeps. -/
theorem c5_stop_amended :
    (∀ (cfg : Config) (w : World) (st : RunSt) (u : Url),
      downloadResourceTimed cfg w 0 st u = [TEvent.stopCheck 0 true]) ∧
    (∀ (cfg : Config) (w : World) (u : Url) (attempt fuel t : Nat),
      ∀ e ∈ timedLoop cfg w u attempt fuel t, isStopCheckEvent e = false) :=
  ⟨downloadResourceTimed_stopped,
    fun cfg w u attempt fuel t => timedLoop_no_stopCheck cfg w u fuel attempt t⟩

/-- **C5** witness: the amended statement at a concrete loop event. -/
theorem c5_stop_amended_witness :
    isStopCheckEvent (TEvent.fetch 0 0) = false :=
  c5_stop_amended.2 { baseUrls := [seedUrl], retries := 2 } worldDown cssUrl 0 2 0
    (TEvent.fetch 0 0) (by decide)

/-- **C6** (counterexample).  The claim says an HTTP error status (4xx or
5xx) on the GET "fails that attempt immediately without retrying".  With 2
retries against an origin whose GET always returns 403, the loop performs
two full attempts — two HEADs, two GETs and two backoff sleeps — because
`raise_for_status` raises `RequestException`, which the `except` clause
catches and retries like any transport error. -/
theorem c6_counterexample :
    fetchLoop { baseUrls := [seedUrl], retries := 2 } world403 cssUrl =
      (.exhausted, [.fetchHead 0, .fetchGet 0, .backoff 1 2, .fetchHead 1, .fetchGet 1,
        .backoff 2 4]) ∧
    (world403.attempt cssUrl 0).getResp = some (403, none, "") := by
  decide

/-- **C6** (amended).  Error handling in `_download_resource`: a HEAD
answering 404 aborts after a single attempt with no retry; any other
failure — transport errors and HTTP error statuses alike — is retried with
exponential backoff `2^(attempt+1)` until the `retries` budget is spent;
an exhausted or 404-aborted URL is added to `failed_downloads`; and a URL
already in `failed_downloads` is skipped without any request. -/
theorem c6_retry_amended :
    (∀ (cfg : Config) (w : World) (u : Url) (m : String), 0 < cfg.retries →
      (w.attempt u 0).headResp = some (404, m) →
      fetchLoop cfg w u = (.no404, [.fetchHead 0])) ∧
    (∀ (cfg : Config) (w : World) (u : Url),
      (∀ i, (w.attempt u i).headResp = none) →
      fetchLoop cfg w u = (.exhausted, (List.range' 0 cfg.retries).flatMap
        (fun i => [REvent.fetchHead i, REvent.backoff (i + 1) (2 ^ (i + 1))]))) ∧
    (∀ (cfg : Config) (w : World) (st : RunSt) (u p : Url),
      cfg.stopSet = false → shouldStopDownloadingResources cfg st = false →
      u ∉ st.downloadCache → u ∉ st.failedDownloads → canFetch cfg w u = true →
      ((fetchLoop cfg w u).1 = LoopRes.no404 ∨ (fetchLoop cfg w u).1 = LoopRes.exhausted) →
      (downloadResource cfg w st (u, p)).failedDownloads = addUrl st.failedDownloads u) ∧
    (∀ (cfg : Config) (w : World) (st : RunSt) (u p : Url),
      u ∈ st.failedDownloads → downloadResource cfg w st (u, p) = st) :=
  ⟨fetchLoop_head404, fetchLoop_transient, downloadResource_failedMark,
    downloadResource_failedSkip⟩

/-- **C6** witness: the amended statement at concrete runs — single-shot
404, exhaustion with backoff trace, and the failure mark. -/
theorem c6_retry_amended_witness :
    fetchLoop { baseUrls := [seedUrl], retries := 2 } world404 cssUrl =
      (.no404, [.fetchHead 0]) ∧
    fetchLoop { baseUrls := [seedUrl], retries := 2 } worldDown cssUrl =
      (.exhausted, (List.range' 0 ({ baseUrls := [seedUrl], retries := 2 } : Config).retries).flatMap
        (fun i => [REvent.fetchHead i, REvent.backoff (i + 1) (2 ^ (i + 1))])) ∧
    (downloadResource { baseUrls := [seedUrl], retries := 2 } worldDown
        (initState { baseUrls := [seedUrl], retries := 2 }) (cssUrl, seedUrl)).failedDownloads =
      addUrl (initState { baseUrls := [seedUrl], retries := 2 }).failedDownloads cssUrl :=
  ⟨c6_retry_amended.1 { baseUrls := [seedUrl], retries := 2 } world404 cssUrl ""
      (by decide) rfl,
    c6_retry_amended.2.1 { baseUrls := [seedUrl], retries := 2 } worldDown cssUrl
      (fun _ => rfl),
    c6_retry_amended.2.2.1 { baseUrls := [seedUrl], retries := 2 } worldDown
      (initState { baseUrls := [seedUrl], retries := 2 }) cssUrl seedUrl rfl rfl
      (by decide) (by decide) (by decide) (Or.inr (by decide))⟩

/-- **C7** (counterexample).  The claim says `flatten` mode stores files
under `<host>/<type-directory>/<filename>`.  For a stylesheet at path
`/x/style.css` the code produces `site.test/style.css` — host then bare
filename, with no intermediate directory of any kind (no `css/`, and the
original `x/` segment is dropped too). -/
theorem c7_counterexample :
    getRelativePath { baseUrls := [seedUrl], downloadStructure := "flatten" } cssUrl =
      "site.test/style.css" ∧
    getRelativePath { baseUrls := [seedUrl], downloadStructure := "flatten" } cssUrl ≠
      "site.test/css/style.css" := by
  decide

/-- **C7** (amended).  In `flatten` mode the relative path is exactly
`<host>/<filename>`: one non-empty final component containing no path
separator, joined directly under the host directory — no type
subdirectory. -/
theorem c7_flatten_amended (cfg : Config) (u : Url)
    (hflat : cfg.downloadStructure = "flatten") (hn : u.netloc ≠ "")
    (hns : u.netloc.data.getLast? ≠ some '/') :
    ∃ f : String, f ≠ "" ∧ (∀ c ∈ f.data, c ≠ '/') ∧
      getRelativePath cfg u = u.netloc ++ "/" ++ f := by
  refine ⟨flattenName u, flattenName_ne_empty u, flattenName_no_slash u, ?_⟩
  rw [getRelativePath_eq, if_pos hflat]
  unfold osJoin
  rw [if_neg ?hstart, if_neg hn, if_neg hns]
  case hstart =>
    intro htake
    rcases hd : (flattenName u).data with _ | ⟨c, cs⟩
    · rw [hd] at htake
      simp at htake
    · rw [hd] at htake
      simp only [List.take] at htake
      have hc : c = '/' := by
        have := List.head_eq_of_cons_eq htake
        exact this
      exact flattenName_no_slash u c (by rw [hd]; exact List.mem_cons_self c cs) hc

/-- **C7** witness: the amended statement at the concrete stylesheet
URL. -/
theorem c7_flatten_amended_witness :
    ∃ f : String, f ≠ "" ∧ (∀ c ∈ f.data, c ≠ '/') ∧
      getRelativePath { baseUrls := [seedUrl], downloadStructure := "flatten" } cssUrl =
        cssUrl.netloc ++ "/" ++ f :=
  c7_flatten_amended { baseUrls := [seedUrl], downloadStructure := "flatten" } cssUrl
    rfl (by decide) (by decide)

/-- **C8** (counterexample).  The claim says `clean_url` strips the
fragment always but the query string only when the "strip query strings"
option is enabled.  The code strips both unconditionally: on a URL with
query `v=2`, `clean_url` returns the query-less URL, which differs from
what the spec's conditional behaviour yields when the option is off. -/
theorem c8_counterexample :
    cleanUrlString
        { scheme := "https", netloc := "site.test", path := "/a.css", query := "v=2" } =
      "https://site.test/a.css" ∧
    cleanUrlSpecModel false
        { scheme := "https", netloc := "site.test", path := "/a.css", query := "v=2" } =
      "https://site.test/a.css?v=2" ∧
    cleanUrlString
        { scheme := "https", netloc := "site.test", path := "/a.css", query := "v=2" } ≠
      cleanUrlSpecModel false
        { scheme := "https", netloc := "site.test", path := "/a.css", query := "v=2" } := by
  decide

/-- **C8** (amended).  `clean_url` unconditionally removes both the
fragment and the query string — its output never depends on the query or
fragment of its input, and it coincides with the spec's conditional model
only in the option-enabled case. -/
theorem c8_clean_amended :
    (∀ (u : Url) (q f : String),
      cleanUrlString { u with query := q, fragment := f } = cleanUrlString u) ∧
    (∀ u : Url, cleanUrlString u = cleanUrlSpecModel true u) :=
  ⟨fun _ _ _ => rfl, fun _ => rfl⟩

/-- **C9** (confirmed).  Domain scoping: when `follow_external_links` is
disabled, `_can_fetch` rejects every URL whose host differs from the host
of the first base URL — regardless of `include_subdomains`, exclusion
patterns or robots rules, since the external-host test short-circuits to
`False` before any allow verdict can be reached. -/
theorem c9_scope (cfg : Config) (w : World) (u : Url)
    (hext : cfg.followExternalLinks = false)
    (hhost : u.netloc ≠ (cfg.baseUrls.headD default).netloc) :
    canFetch cfg w u = false := by
  simp only [canFetch, canFetchAt]
  split_ifs with g1 g2 g3 g4 g5
  any_goals rfl
  all_goals
    exact absurd
      (⟨by simp [hext], hhost⟩ : ¬cfg.followExternalLinks = true ∧
        u.netloc ≠ (cfg.baseUrls.headD default).netloc)
      (by assumption)

/-- **C9** witness: a subdomain host is rejected under the default
configuration. -/
theorem c9_scope_witness :
    canFetch { baseUrls := [seedUrl] } worldOk otherHostUrl = false :=
  c9_scope { baseUrls := [seedUrl] } worldOk otherHostUrl rfl (by decide)

/-- **C10** (confirmed).  Zero-total guard: `_update_progress` publishes
100 whenever the resource total is 0, so a run that counted no resources
only ever publishes the value 100 and no division is attempted. -/
theorem c10_zero_total :
    (∀ d : Nat, updateProgressValue d 0 = 100) ∧
    (∀ (cfg : Config) (w : World) (seeds : List Url),
      (runModelSeeds cfg w seeds).totalResources = 0 →
      ∀ p ∈ (runModelSeeds cfg w seeds).pubs, p.value = 100) := by
  refine ⟨fun d => rfl, ?_⟩
  intro cfg w seeds htot p hp
  obtain ⟨hlen, hpubs, hq⟩ := runCore_rpInv cfg w seeds
  have h0 : (runCore cfg w seeds).totalResources = 0 := by
    rw [← (runModelSeeds_traces cfg w seeds).2.2.2]
    exact htot
  rw [runModelSeeds_eq_core] at hp
  by_cases hstop : cfg.stopSet = true
  · rw [if_pos hstop] at hp
    obtain ⟨ha, hb, _⟩ := hpubs p hp
    rw [hb, ha, h0]
    rfl
  · rw [if_neg hstop] at hp
    rcases List.mem_append.1 hp with hp | hp
    · obtain ⟨ha, hb, _⟩ := hpubs p hp
      rw [hb, ha, h0]
      rfl
    · rcases List.mem_singleton.1 hp with rfl
      rfl

/-- **C10** witness: on a run with no resources the lone publication is
the final 100. -/
theorem c10_zero_total_witness :
    updateProgressValue 5 0 = 100 ∧ (⟨0, 0, 100⟩ : Pub).value = 100 :=
  ⟨c10_zero_total.1 5,
    c10_zero_total.2 { baseUrls := [seedUrl] } worldEmpty [seedUrl] (by decide)
      ⟨0, 0, 100⟩ (by decide)⟩
